import Mathlib

/-!
Verification of the sparse/dense matrix engine of `univ-lehavre/abacus`
(`packages/matrix/src/{csr.ts, dense.ts, matrix.ts}`).

Shallow embedding conventions:
* `number` values are modelled as exact rationals `ℚ`; the engine's
  properties under scrutiny (exact-zero pruning, merge/Gustavson
  accumulation, structural invariants) are about exact arithmetic.
* `Float64Array` / `Uint32Array` buffers are modelled as `List ℚ` / `List Nat`;
  reads use `List.getD` (in range they coincide with the source's indexing).
* Indices are `Nat`; the source's `e.i < 0` half of each bounds check is
  subsumed (`RangeError` paths are modelled by `Except.error`).
* `throw` is modelled by `Except String`; a function that cannot throw on the
  embedded path is total.
* JavaScript's `Array.prototype.sort` is a stable comparison sort, so with a
  lexicographic comparator its output is the stable lexicographic sort,
  modelled by `List.insertionSort` (which is stable).
-/

set_option linter.unusedVariables false

namespace Abacus

instance {ε α : Type} [DecidableEq ε] [DecidableEq α] : DecidableEq (Except ε α) := fun x y =>
  match x, y with
  | .ok a, .ok b =>
    if h : a = b then isTrue (by rw [h]) else isFalse (by intro hc; cases hc; exact h rfl)
  | .error e, .error f =>
    if h : e = f then isTrue (by rw [h]) else isFalse (by intro hc; cases hc; exact h rfl)
  | .ok _, .error _ => isFalse (by intro hc; cases hc)
  | .error _, .ok _ => isFalse (by intro hc; cases hc)

/-- A COO triplet, the `{ i; j; v }` record of `csr.ts`. -/
structure Entry where
  i : Nat
  j : Nat
  v : ℚ
deriving Repr, DecidableEq

/-- The order the comparator `(a, b) => a.i - b.i || a.j - b.j` of
`CSRMatrix.fromCOO` sorts by: lexicographic on the position `(i, j)`. -/
def entryLe (a b : Entry) : Prop := a.i < b.i ∨ (a.i = b.i ∧ a.j ≤ b.j)

/-- Strict lexicographic order on entry positions. -/
def entryLt (a b : Entry) : Prop := a.i < b.i ∨ (a.i = b.i ∧ a.j < b.j)

instance : DecidableRel entryLe := fun a b => by unfold entryLe; infer_instance

instance : DecidableRel entryLt := fun a b => by unfold entryLt; infer_instance

instance : IsTotal Entry entryLe :=
  ⟨fun a b => by unfold entryLe; omega⟩

instance : IsTrans Entry entryLe :=
  ⟨fun a b c hab hbc => by unfold entryLe at *; omega⟩

/-- `entries.sort((a, b) => a.i - b.i || a.j - b.j)`: the stable
lexicographic sort of the entries. -/
def cooSort (es : List Entry) : List Entry := List.insertionSort entryLe es

/-- Dense row-major matrix over a flat contiguous buffer (`dense.ts`):
element `(i, j)` lives at offset `i*cols + j` of `data`, whose length is
`rows*cols` for every constructor-produced matrix. -/
structure DenseMatrix where
  rows : Nat
  cols : Nat
  data : List ℚ
deriving Repr, DecidableEq

namespace DenseMatrix

/-- Raw buffer read `this.data[i*this.cols + j]`, as performed inside the
arithmetic kernels (no bounds check). -/
def entry (A : DenseMatrix) (i j : Nat) : ℚ := A.data.getD (i * A.cols + j) 0

/-- `get(i, j)`: element read through the bounds-checking `idx` helper
(`RangeError` when out of bounds). -/
def get (A : DenseMatrix) (i j : Nat) : Except String ℚ :=
  if i < A.rows ∧ j < A.cols then .ok (A.entry i j) else .error "Indice hors limites"

/-- `set(i, j, value)` through the bounds-checking `idx` helper; returns the
updated matrix. -/
def set (A : DenseMatrix) (i j : Nat) (v : ℚ) : Except String DenseMatrix :=
  if i < A.rows ∧ j < A.cols then
    .ok ⟨A.rows, A.cols, A.data.set (i * A.cols + j) v⟩
  else .error "Indice hors limites"

/-- Helper shape shared by the dense kernels below: a `rows × cols` matrix
whose flat buffer holds `f i j` at offset `i*cols + j`. -/
def ofFn (rows cols : Nat) (f : Nat → Nat → ℚ) : DenseMatrix :=
  ⟨rows, cols, (List.range (rows * cols)).map fun idx => f (idx / cols) (idx % cols)⟩

/-- Dense `add` (Dense operand branch): elementwise loop over the flat
buffers after the dimension-compatibility check. -/
def add (A B : DenseMatrix) : Except String DenseMatrix :=
  if A.rows = B.rows ∧ A.cols = B.cols then
    .ok ⟨A.rows, A.cols,
      (List.range A.data.length).map fun k => A.data.getD k 0 + B.data.getD k 0⟩
  else .error "Dimensions incompatibles pour add"

/-- Dense `sub` (Dense operand branch). -/
def sub (A B : DenseMatrix) : Except String DenseMatrix :=
  if A.rows = B.rows ∧ A.cols = B.cols then
    .ok ⟨A.rows, A.cols,
      (List.range A.data.length).map fun k => A.data.getD k 0 - B.data.getD k 0⟩
  else .error "Dimensions incompatibles pour sub"

/-- Dense scalar multiplication: `out.data[k] = this.data[k] * B`. -/
def mulScalar (A : DenseMatrix) (c : ℚ) : DenseMatrix :=
  ⟨A.rows, A.cols, A.data.map (· * c)⟩

/-- The Dense×Dense i-k-j matmul kernel: cell `(i, j)` accumulates
`aik * B[k, j]` over `k`, with the `if (aik === 0) continue` skip kept as the
zero summand it is. -/
def mulDense (A B : DenseMatrix) : DenseMatrix :=
  ofFn A.rows B.cols fun i j =>
    ((List.range A.cols).map fun k =>
      if A.entry i k = 0 then 0 else A.entry i k * B.entry k j).sum

/-- Dense `mul` by a matrix: dimension check then the Dense×Dense kernel. -/
def mulMat (A B : DenseMatrix) : Except String DenseMatrix :=
  if A.cols = B.rows then .ok (A.mulDense B) else .error "Dimensions incompatibles pour mul"

/-- Dense `transpose`: `out.data[j*rows + i] = data[i*cols + j]`. -/
def transpose (A : DenseMatrix) : DenseMatrix :=
  ofFn A.cols A.rows fun j i => A.entry i j

/-- Dense `matvec`: per-row dot product after the length check. -/
def matvec (A : DenseMatrix) (x : List ℚ) : Except String (List ℚ) :=
  if x.length = A.cols then
    .ok ((List.range A.rows).map fun i =>
      ((List.range A.cols).map fun k => A.entry i k * x.getD k 0).sum)
  else .error "Taille du vecteur incompatible"

end DenseMatrix

/-- Compressed Sparse Row matrix (`csr.ts`): three parallel buffers;
`values`/`colIndex` hold the stored entries row by row and `rowPtr` (of
length `rows+1`) the row offsets. -/
structure CSRMatrix where
  rows : Nat
  cols : Nat
  values : List ℚ
  colIndex : List Nat
  rowPtr : List Nat
deriving Repr, DecidableEq

namespace CSRMatrix

/-- The validating constructor `new CSRMatrix(rows, cols, values, colIndex,
rowPtr)`: checks the rowPtr length, the `values`/`colIndex` length match and
the `rowPtr[0] = 0` / `rowPtr[rows] = nnz` consistency, and throws
otherwise. Per-row column sortedness is a caller obligation, not checked. -/
def mk? (rows cols : Nat) (values : List ℚ) (colIndex : List Nat)
    (rowPtr : List Nat) : Except String CSRMatrix :=
  if rowPtr.length ≠ rows + 1 then .error "rowPtr invalide"
  else if values.length ≠ colIndex.length then .error "values/colIndex longueur differente"
  else if ¬(rowPtr.getD 0 0 = 0 ∧ rowPtr.getD (rowPtr.length - 1) 0 = values.length) then
    .error "rowPtr non coherent"
  else .ok ⟨rows, cols, values, colIndex, rowPtr⟩

/-- The row-`r` slice `[rowPtr[r], rowPtr[r+1])` of the parallel buffers, as
(column, value) pairs, the unit every per-row loop of `csr.ts` walks. -/
def rowPairs (A : CSRMatrix) (r : Nat) : List (Nat × ℚ) :=
  ((A.colIndex.zip A.values).drop (A.rowPtr.getD r 0)).take
    (A.rowPtr.getD (r + 1) 0 - A.rowPtr.getD r 0)

/-- The scan loop of `get`: walk the row slice, return the value on a column
match, stop early once past `j` (`if (colIndex[k] > j) break`), default 0. -/
def scanRow : List (Nat × ℚ) → Nat → ℚ
  | [], _ => 0
  | (c, v) :: rest, j => if c = j then v else if j < c then 0 else scanRow rest j

/-- The value `get(i, j)` returns once past its bounds check. -/
def getv (A : CSRMatrix) (i j : Nat) : ℚ := scanRow (A.rowPairs i) j

/-- `get(i, j)`: bounds check then row scan. -/
def get (A : CSRMatrix) (i j : Nat) : Except String ℚ :=
  if i < A.rows ∧ j < A.cols then .ok (A.getv i j) else .error "Indice hors limites"

/-- All stored entries as COO triplets in row-major storage order — the
materialization loop shared by `set`, `transpose` and `toDense`. -/
def entriesOf (A : CSRMatrix) : List Entry :=
  ((List.range A.rows).map fun r => (A.rowPairs r).map fun p => Entry.mk r p.1 p.2).flatten

/-- The counting pass of `fromCOO`: `for (e of entries) rowPtr[e.i + 1]++`. -/
def bumpCounts (es : List Entry) (rp : List Nat) : List Nat :=
  es.foldl (fun acc e => acc.set (e.i + 1) (acc.getD (e.i + 1) 0 + 1)) rp

/-- The in-place prefix-sum pass of `fromCOO`:
`for (r = 0; r < rows; r++) rowPtr[r+1] += rowPtr[r]`. -/
def prefixPass (rows : Nat) (rp : List Nat) : List Nat :=
  (List.range rows).foldl
    (fun acc r => acc.set (r + 1) (acc.getD (r + 1) 0 + acc.getD r 0)) rp

/-- State of the scatter pass of `fromCOO`: the output buffers plus the
per-row write cursor initialized from `rowPtr.slice()`. -/
structure ScatterState where
  values : List ℚ
  colIndex : List Nat
  cursor : List Nat
deriving Repr, DecidableEq

/-- One step of the scatter loop:
`k = cursor[e.i]++; values[k] = e.v; colIndex[k] = e.j`. -/
def scatterStep (st : ScatterState) (e : Entry) : ScatterState :=
  let k := st.cursor.getD e.i 0
  ⟨st.values.set k e.v, st.colIndex.set k e.j, st.cursor.set e.i (k + 1)⟩

/-- The scatter pass of `fromCOO` over the sorted entries. -/
def scatter (es : List Entry) (st : ScatterState) : ScatterState :=
  es.foldl scatterStep st

/-- The body of `fromCOO` once every entry is known to be in bounds: sort by
`(i, j)`, count rows, prefix-sum into `rowPtr`, scatter into pre-sized
buffers. Entries are neither deduplicated nor zero-filtered. -/
def cooBuild (rows cols : Nat) (es : List Entry) : CSRMatrix :=
  let sorted := cooSort es
  let rowPtr := prefixPass rows (bumpCounts sorted (List.replicate (rows + 1) 0))
  let nnz := rowPtr.getD rows 0
  let st := scatter sorted ⟨List.replicate nnz 0, List.replicate nnz 0, rowPtr⟩
  ⟨rows, cols, st.values, st.colIndex, rowPtr⟩

/-- `CSRMatrix.fromCOO`. The source sorts the caller's array in place, then
validates every entry against the bounds inside the counting loop (throwing
`RangeError` on the first bad one), then builds; success, the error raised,
and the structure produced agree with checking the bounds up front and
running the total build on success. -/
def fromCOO (rows cols : Nat) (es : List Entry) : Except String CSRMatrix :=
  if es.all fun e => e.i < rows && e.j < cols then .ok (cooBuild rows cols es)
  else .error "Indice hors limites"

/-- Caller-visible content of the `entries` argument after `fromCOO` returns
or throws: `entries.sort(...)` reordered the caller's own array in place
(the sort runs before the bounds validation). -/
def fromCOOArgAfter (es : List Entry) : List Entry := cooSort es

/-- The triplet collection loop of `fromDense`: row-major scan keeping the
non-zero `(i, j, v)`. -/
def denseTriplets (A : DenseMatrix) : List Entry :=
  ((List.range A.rows).map fun i =>
    (List.range A.cols).filterMap fun j =>
      if A.entry i j = 0 then none else some (Entry.mk i j (A.entry i j))).flatten

/-- `CSRMatrix.fromDense`: collect the non-zero triplets, then `fromCOO`. -/
def fromDense (A : DenseMatrix) : Except String CSRMatrix :=
  fromCOO A.rows A.cols (denseTriplets A)

/-- Total form of `fromDense` (its triplets are in bounds by construction,
so `fromCOO` cannot throw; see `fromDense_eq_ok`). -/
def fromDense0 (A : DenseMatrix) : CSRMatrix :=
  cooBuild A.rows A.cols (denseTriplets A)

/-- The update loop of `set`: give the first entry at `(i, j)` the new value
(`t.v = value; break`). -/
def replaceFirst (es : List Entry) (i j : Nat) (v : ℚ) : List Entry :=
  match es with
  | [] => []
  | t :: rest =>
    if t.i = i ∧ t.j = j then Entry.mk t.i t.j v :: rest
    else t :: replaceFirst rest i j v

/-- `set(i, j, value)`: bounds check; materialize all entries as COO; update
the first entry at `(i, j)` or append a new one; drop exact zeros; rebuild
through `fromCOO`. The receiver's buffers are reassigned only after the
rebuild succeeds. -/
def set (A : CSRMatrix) (i j : Nat) (v : ℚ) : Except String CSRMatrix :=
  if i < A.rows ∧ j < A.cols then
    let entries := A.entriesOf
    let entries' :=
      if entries.any fun t => t.i = i && t.j = j then replaceFirst entries i j v
      else entries ++ [Entry.mk i j v]
    fromCOO A.rows A.cols (entries'.filter fun t => t.v ≠ 0)
  else .error "Indice hors limites"

/-- The receiver's state as the caller observes it after `set`: on error the
exception propagates before any field is reassigned, so the receiver is
unchanged. -/
def setRun (A : CSRMatrix) (i j : Nat) (v : ℚ) : CSRMatrix :=
  match A.set i j v with
  | .ok C => C
  | .error _ => A

/-- One row of the sorted two-pointer merge shared by `add` and `sub`: `fB`
is applied to unmatched right-hand values (the identity for `add`, negation
for `sub`), `fAB` combines a matched column, and an exact-zero combination
is dropped (structural pruning). -/
def mergePairs (fB : ℚ → ℚ) (fAB : ℚ → ℚ → ℚ) :
    List (Nat × ℚ) → List (Nat × ℚ) → List (Nat × ℚ)
  | as, [] => as
  | [], bs => bs.map fun p => (p.1, fB p.2)
  | (ja, va) :: as, (jb, vb) :: bs =>
    if ja < jb then (ja, va) :: mergePairs fB fAB as ((jb, vb) :: bs)
    else if jb < ja then (jb, fB vb) :: mergePairs fB fAB ((ja, va) :: as) bs
    else
      (if fAB va vb = 0 then [] else [(ja, fAB va vb)]) ++ mergePairs fB fAB as bs
termination_by as bs => as.length + bs.length

/-- The COO entry list the row-by-row merge of `add`/`sub` accumulates
before rebuilding. -/
def mergedEntries (fB : ℚ → ℚ) (fAB : ℚ → ℚ → ℚ) (A B : CSRMatrix) : List Entry :=
  ((List.range A.rows).map fun i =>
    (mergePairs fB fAB (A.rowPairs i) (B.rowPairs i)).map fun p =>
      Entry.mk i p.1 p.2).flatten

/-- CSR `add` with a CSR operand: dimension check, per-row sorted merge with
`+`, rebuild through `fromCOO`. -/
def add (A B : CSRMatrix) : Except String CSRMatrix :=
  if A.rows = B.rows ∧ A.cols = B.cols then
    fromCOO A.rows A.cols (mergedEntries id (· + ·) A B)
  else .error "Dimensions incompatibles pour add"

/-- CSR `sub` with a CSR operand: as `add`, with `-B.values[b]` on unmatched
right columns and `a - b` on matches. -/
def sub (A B : CSRMatrix) : Except String CSRMatrix :=
  if A.rows = B.rows ∧ A.cols = B.cols then
    fromCOO A.rows A.cols (mergedEntries (fun v => -v) (· - ·) A B)
  else .error "Dimensions incompatibles pour sub"

/-- CSR scalar multiplication: scale `values`, copy `colIndex`/`rowPtr`
unchanged; a zero scalar is not special-cased. -/
def mulScalar (A : CSRMatrix) (c : ℚ) : CSRMatrix :=
  ⟨A.rows, A.cols, A.values.map (· * c), A.colIndex, A.rowPtr⟩

/-- The marker/pos sparse-accumulator update of the Gustavson pass: a column
already marked for this row has the product summed into its slot in place
(`values[pos[j]] += prod`); a new column is appended at the cursor. -/
def upsert : List (Nat × ℚ) → Nat → ℚ → List (Nat × ℚ)
  | [], j, p => [(j, p)]
  | (c, v) :: rest, j, p =>
    if c = j then (c, v + p) :: rest else (c, v) :: upsert rest j p

/-- Row-`i` sparse accumulation (pass 2 inner loops of CSR×CSR `mul`): for
each stored `(k, aik)` of row `i` of `A` (skipping `aik === 0`) and each
stored `(j, b)` of row `k` of `B`, accumulate `aik*b`, skipping exact-zero
products. -/
def accRow (A B : CSRMatrix) (i : Nat) : List (Nat × ℚ) :=
  (A.rowPairs i).foldl
    (fun acc kv =>
      if kv.2 = 0 then acc
      else (B.rowPairs kv.1).foldl
        (fun acc2 jb => if kv.2 * jb.2 = 0 then acc2 else upsert acc2 jb.1 (kv.2 * jb.2))
        acc)
    []

/-- The comparator of the per-row index sort of CSR×CSR `mul`:
`order.sort((a, b) => colsTmp[a] - colsTmp[b])` orders by column. -/
def pairLe (p q : Nat × ℚ) : Prop := p.1 ≤ q.1

instance : DecidableRel pairLe := fun p q => by unfold pairLe; infer_instance

instance : IsTotal (Nat × ℚ) pairLe := ⟨fun p q => Nat.le_total p.1 q.1⟩

instance : IsTrans (Nat × ℚ) pairLe := ⟨fun _ _ _ h1 h2 => Nat.le_trans h1 h2⟩

/-- The compaction write-back of CSR×CSR `mul`: walk the column-sorted row,
skip accumulated exact zeros, merge a duplicate of the previously written
column (dropping it if the sum cancels; unreachable when columns are
distinct), append otherwise. -/
def compactLoop (acc : List (Nat × ℚ)) : List (Nat × ℚ) → List (Nat × ℚ)
  | [] => acc
  | (j, v) :: rest =>
    if v = 0 then compactLoop acc rest
    else
      match acc.getLast? with
      | some q =>
        if j = q.1 then
          if q.2 + v = 0 then compactLoop acc.dropLast rest
          else compactLoop (acc.dropLast ++ [(q.1, q.2 + v)]) rest
        else compactLoop (acc ++ [(j, v)]) rest
      | none => compactLoop [(j, v)] rest

/-- Finish an accumulated row: the stable index sort
`order.sort((a, b) => colsTmp[a] - colsTmp[b])` followed by the compaction
write-back. -/
def compactRow (l : List (Nat × ℚ)) : List (Nat × ℚ) :=
  compactLoop [] (List.insertionSort pairLe l)

/-- Cumulative row lengths: the final content of the output `rowPtr`, whose
slot `i+1` records the running compacted total `w`. -/
def rowPtrOfLens (lens : List Nat) : List Nat :=
  (List.range (lens.length + 1)).map fun r => ((lens.take r).sum)

/-- CSR×CSR matmul (Gustavson two-pass, `csr.ts`): per output row, sparse
accumulation then sort-and-compact, packed into fresh buffers. Pass 1 of
the source only precomputes capacities for the scratch buffers and does not
affect the final (sliced-to-nnz) content embedded here. -/
def mulCSR (A B : CSRMatrix) : CSRMatrix :=
  let rowsData := (List.range A.rows).map fun i => compactRow (accRow A B i)
  ⟨A.rows, B.cols,
    (rowsData.map fun rd => rd.map Prod.snd).flatten,
    (rowsData.map fun rd => rd.map Prod.fst).flatten,
    rowPtrOfLens (rowsData.map List.length)⟩

/-- The per-output-row compacted lists of the Gustavson pass, named for the
lemmas below. -/
def rowsData (A B : CSRMatrix) : List (List (Nat × ℚ)) :=
  (List.range A.rows).map fun i => compactRow (accRow A B i)

/-- CSR `mul` by a CSR matrix: dimension check then the Gustavson kernel. -/
def mulMat (A B : CSRMatrix) : Except String CSRMatrix :=
  if A.cols = B.rows then .ok (A.mulCSR B) else .error "Dimensions incompatibles pour mul"

/-- CSR `transpose`: re-emit every stored `(i, j, v)` as `(j, i, v)` and
rebuild through `fromCOO` (which re-sorts). -/
def transpose (A : CSRMatrix) : Except String CSRMatrix :=
  fromCOO A.cols A.rows (A.entriesOf.map fun e => Entry.mk e.j e.i e.v)

/-- CSR `matvec`: per-row dot of the stored entries against `x`. -/
def matvec (A : CSRMatrix) (x : List ℚ) : Except String (List ℚ) :=
  if x.length = A.cols then
    .ok ((List.range A.rows).map fun i =>
      ((A.rowPairs i).map fun p => p.2 * x.getD p.1 0).sum)
  else .error "Taille du vecteur incompatible"

/-- CSR `toDense`: scatter every stored entry into a fresh zero-initialized
dense buffer (`A.set(i, colIndex[k], values[k])`, row-major order). -/
def toDense (A : CSRMatrix) : DenseMatrix :=
  ⟨A.rows, A.cols,
    A.entriesOf.foldl (fun d e => d.set (e.i * A.cols + e.j) e.v)
      (List.replicate (A.rows * A.cols) 0)⟩

/-- Structural CSR validity: consistent buffer lengths and a monotone
`rowPtr` running from 0 to nnz — what makes every buffer access of the
per-row loops in-range, so that the `List.getD` reads of this embedding
coincide with the source's typed-array indexing. -/
def Structural (A : CSRMatrix) : Prop :=
  A.values.length = A.colIndex.length ∧
  A.rowPtr.length = A.rows + 1 ∧
  A.rowPtr.getD 0 0 = 0 ∧
  A.rowPtr.getD A.rows 0 = A.values.length ∧
  ∀ r < A.rows, A.rowPtr.getD r 0 ≤ A.rowPtr.getD (r + 1) 0

/-- Invariant 3 of the spec: within each row the stored column indices are
strictly increasing. -/
def RowsSorted (A : CSRMatrix) : Prop :=
  ∀ r < A.rows, ((A.rowPairs r).map Prod.fst).Pairwise (· < ·)

/-- Invariant 5 of the spec (column half): every stored column index is in
`[0, cols)`. -/
def ColsBounded (A : CSRMatrix) : Prop :=
  ∀ r < A.rows, ∀ p ∈ A.rowPairs r, p.1 < A.cols

/-- Invariant 4 of the spec: no stored value is exactly zero. -/
def NoZeroStored (A : CSRMatrix) : Prop := ∀ v ∈ A.values, v ≠ 0

/-- The claim C2 invariant: strictly increasing columns per row and no
stored exact zero. -/
def CSRInvariant (A : CSRMatrix) : Prop := RowsSorted A ∧ NoZeroStored A

/-- Full well-formedness of a CSR matrix. -/
def Wf (A : CSRMatrix) : Prop := Structural A ∧ RowsSorted A ∧ ColsBounded A

instance (A : CSRMatrix) : Decidable (Structural A) := by
  unfold Structural; infer_instance

instance (A : CSRMatrix) : Decidable (RowsSorted A) := by
  unfold RowsSorted; infer_instance

instance (A : CSRMatrix) : Decidable (ColsBounded A) := by
  unfold ColsBounded; infer_instance

instance (A : CSRMatrix) : Decidable (NoZeroStored A) := by
  unfold NoZeroStored; infer_instance

instance (A : CSRMatrix) : Decidable (CSRInvariant A) := by
  unfold CSRInvariant; infer_instance

instance (A : CSRMatrix) : Decidable (Wf A) := by
  unfold Wf; infer_instance

end CSRMatrix

/-- Which concrete representation the adaptive facade holds. -/
inductive Backend
  | dense
  | csr
deriving Repr, DecidableEq

/-- The adaptive facade (`matrix.ts`): exactly one concrete representation
plus the density threshold. -/
structure Matrix where
  impl : DenseMatrix ⊕ CSRMatrix
  threshold : ℚ
deriving DecidableEq

namespace Matrix

/-- The `backend` getter: `impl instanceof CSRMatrix ? 'csr' : 'dense'`. -/
def backend (M : Matrix) : Backend :=
  match M.impl with
  | .inl _ => .dense
  | .inr _ => .csr

/-- `Matrix.chooseBackend`: density `nnz / (rows*cols)` (0 when the size is
0), CSR iff `density <= threshold`. -/
def chooseBackend (rows cols nnz : Nat) (threshold : ℚ) : Backend :=
  let size := rows * cols
  let density : ℚ := if size > 0 then (nnz : ℚ) / (size : ℚ) else 0
  if density ≤ threshold then .csr else .dense

/-- `Matrix.zeros(rows, cols, threshold)`: builds
`new CSRMatrix(rows, cols, new Float64Array(0), new Uint32Array(0),
new Uint32Array([0]))` — a one-element `rowPtr` — and wraps it. -/
def zeros (rows cols : Nat) (threshold : ℚ) : Except String Matrix :=
  (CSRMatrix.mk? rows cols [] [] [0]).map fun impl => ⟨.inr impl, threshold⟩

end Matrix

namespace CSRMatrix

/-- Number of stored entries in the rows before `r`: the value the counting
plus prefix-sum passes leave in `rowPtr[r]`. -/
def rowStart (es : List Entry) (r : Nat) : Nat := es.countP fun e => e.i < r

/-- Column-keyed value sum of a row slice: what the scan loop of `get`
computes on a sorted row. -/
def rowVal (l : List (Nat × ℚ)) (j : Nat) : ℚ :=
  ((l.filter fun p => p.1 = j).map Prod.snd).sum

/-- Total value stored at a position by an entry list. -/
def entryVal (es : List Entry) (i j : Nat) : ℚ :=
  ((es.filter fun e => e.i = i ∧ e.j = j).map fun e => e.v).sum

/-- The stored position of an entry. -/
def posOf (e : Entry) : Nat × Nat := (e.i, e.j)

end CSRMatrix

/-! Concrete fixtures used by the witness and counterexample theorems. -/

/-- Witness fixture: a concrete structurally valid CSR matrix. -/
def csrW : CSRMatrix := ⟨2, 2, [1, 2], [0, 1], [0, 1, 2]⟩

/-- Witness fixture: a concrete dense matrix. -/
def denseW : DenseMatrix := ⟨2, 2, [1, 0, 0, 3]⟩

/-- Counterexample fixture for C3: what `fromCOO` actually builds from two
duplicate entries at (0,0) with values 1 and -1. -/
def c3ex : CSRMatrix := ⟨1, 1, [1, -1], [0, 0], [0, 2]⟩

/-- Witness fixture for C3: distinct positions, one stored exact zero. -/
def c3W : CSRMatrix := ⟨1, 2, [5, 0], [0, 1], [0, 2]⟩

def c1A : DenseMatrix := ⟨2, 3, [1, 0, 2, 0, 3, 0]⟩

def c1B : DenseMatrix := ⟨3, 2, [4, 0, 0, 5, 6, 0]⟩

/-! Generic list-buffer lemmas used throughout. -/

theorem getD_set {α : Type} (l : List α) (m t : Nat) (x d : α) :
    (l.set m x).getD t d = if m = t ∧ t < l.length then x else l.getD t d := by
  simp only [List.getD_eq_getElem?_getD, List.getElem?_set]
  by_cases hmt : m = t
  · subst hmt
    by_cases ht : m < l.length
    · simp [ht]
    · simp [ht, List.getElem?_eq_none (by omega : l.length ≤ m)]
  · simp [hmt]

theorem mapRange_getD {α : Type} (n k : Nat) (f : Nat → α) (d : α) :
    ((List.range n).map f).getD k d = if k < n then f k else d := by
  simp only [List.getD_eq_getElem?_getD, List.getElem?_map]
  by_cases h : k < n
  · simp [List.getElem?_range h, h]
  · rw [List.getElem?_eq_none (by simpa using h)]
    simp [h]

theorem getD_append_left {α : Type} (l₁ l₂ : List α) (t : Nat) (d : α) (h : t < l₁.length) :
    (l₁ ++ l₂).getD t d = l₁.getD t d := by
  simp only [List.getD_eq_getElem?_getD, List.getElem?_append_left h]

theorem set_append_mid {α : Type} (l₁ l₂ : List α) (a x : α) :
    (l₁ ++ a :: l₂).set l₁.length x = l₁ ++ x :: l₂ := by
  induction l₁ with
  | nil => simp
  | cons b t ih => simp [ih]

/-! Characterization of the `fromCOO` pipeline. -/

namespace CSRMatrix

theorem bumpCounts_length (es : List Entry) (rp : List Nat) :
    (bumpCounts es rp).length = rp.length := by
  induction es generalizing rp with
  | nil => rfl
  | cons e es ih => simp [bumpCounts, List.foldl_cons] at ih ⊢; rw [ih, List.length_set]

theorem bumpCounts_getD (es : List Entry) (rp : List Nat) (t : Nat)
    (hb : ∀ e ∈ es, e.i + 1 < rp.length) :
    (bumpCounts es rp).getD t 0 = rp.getD t 0 + es.countP (fun e => e.i + 1 = t) := by
  induction es generalizing rp with
  | nil => simp [bumpCounts]
  | cons e es ih =>
    have he : e.i + 1 < rp.length := hb e (by simp)
    have hrest : ∀ f ∈ es, f.i + 1 < (rp.set (e.i + 1) (rp.getD (e.i + 1) 0 + 1)).length := by
      intro f hf; rw [List.length_set]; exact hb f (by simp [hf])
    show (bumpCounts es _).getD t 0 = _
    rw [ih _ hrest, getD_set, List.countP_cons]
    simp only [decide_eq_true_eq]
    by_cases h : e.i + 1 = t
    · subst h
      rw [if_pos ⟨rfl, he⟩, if_pos rfl]
      omega
    · rw [if_neg (fun hc => h hc.1), if_neg h]
      omega

theorem prefixPass_length (rows : Nat) (rp : List Nat) :
    (prefixPass rows rp).length = rp.length := by
  unfold prefixPass
  induction (List.range rows) generalizing rp with
  | nil => rfl
  | cons r rs ih => simp only [List.foldl_cons]; rw [ih, List.length_set]

theorem prefixPass_getD (rows : Nat) (rp : List Nat) (hlen : rows < rp.length) :
    ∀ t, (prefixPass rows rp).getD t 0 =
      if t ≤ rows then ((List.range (t + 1)).map fun s => rp.getD s 0).sum
      else rp.getD t 0 := by
  induction rows with
  | zero =>
    intro t
    by_cases h : t ≤ 0
    · have ht : t = 0 := by omega
      subst ht
      rw [if_pos h]
      show rp.getD 0 0 = _
      simp [List.range_succ]

    · rw [if_neg h]
      rfl
  | succ m ih =>
    intro t
    have hm : m < rp.length := by omega
    have hstep : prefixPass (m + 1) rp =
        (prefixPass m rp).set (m + 1)
          ((prefixPass m rp).getD (m + 1) 0 + (prefixPass m rp).getD m 0) := by
      unfold prefixPass
      rw [List.range_succ, List.foldl_append]
      rfl
    rw [hstep, getD_set, prefixPass_length]
    have hv : (prefixPass m rp).getD (m + 1) 0 + (prefixPass m rp).getD m 0 =
        ((List.range (m + 1 + 1)).map fun s => rp.getD s 0).sum := by
      rw [ih hm (m + 1), ih hm m, if_neg (by omega : ¬m + 1 ≤ m), if_pos (le_refl m)]
      conv_rhs => rw [List.range_succ]
      rw [List.map_append, List.sum_append]
      simp only [List.map_cons, List.map_nil, List.sum_cons, List.sum_nil]
      omega
    by_cases h : m + 1 = t
    · subst h
      rw [if_pos ⟨rfl, by omega⟩, if_pos (le_refl (m + 1))]
      exact hv
    · rw [if_neg (fun hc => h hc.1), ih hm t]
      by_cases h2 : t ≤ m
      · rw [if_pos h2, if_pos (by omega)]
      · rw [if_neg h2, if_neg (by omega)]

theorem countP_lt_succ (es : List Entry) (t : Nat) :
    (es.countP fun e => e.i < t + 1) =
      (es.countP fun e => e.i < t) + es.countP fun e => e.i = t := by
  induction es with
  | nil => simp
  | cons e es ih =>
    simp only [List.countP_cons, ih, decide_eq_true_eq]
    split_ifs <;> omega

theorem replicate_zero_getD (n t : Nat) : (List.replicate n (0 : Nat)).getD t 0 = 0 := by
  simp only [List.getD_eq_getElem?_getD, List.getElem?_replicate]
  split <;> simp

/-- The `rowPtr` built by `cooBuild`'s counting-plus-prefix passes equals the
cumulative row starts of the (sorted) entries. -/
theorem cooBuild_rowPtr_getD (rows : Nat) (es : List Entry)
    (hb : ∀ e ∈ es, e.i < rows) (t : Nat) (ht : t ≤ rows) :
    (prefixPass rows (bumpCounts es (List.replicate (rows + 1) 0))).getD t 0 =
      rowStart es t := by
  have hlen : (bumpCounts es (List.replicate (rows + 1) 0)).length = rows + 1 := by
    rw [bumpCounts_length, List.length_replicate]
  have hcnt : ∀ s, (bumpCounts es (List.replicate (rows + 1) 0)).getD s 0 =
      es.countP fun e => e.i + 1 = s := by
    intro s
    rw [bumpCounts_getD]
    · rw [replicate_zero_getD, Nat.zero_add]
    · intro e he; rw [List.length_replicate]; exact Nat.succ_lt_succ (hb e he)
  rw [prefixPass_getD _ _ (by omega), if_pos ht]
  induction t with
  | zero =>
    have h0 : ((List.range (0 + 1)).map fun s =>
        (bumpCounts es (List.replicate (rows + 1) 0)).getD s 0).sum =
        (bumpCounts es (List.replicate (rows + 1) 0)).getD 0 0 := by
      simp [List.range_succ]
    rw [h0, hcnt 0]
    simp [rowStart, List.countP_eq_zero]
  | succ m ihm =>
    rw [List.range_succ, List.map_append, List.sum_append]
    rw [ihm (by omega)]
    simp only [List.map_cons, List.map_nil, List.sum_cons, List.sum_nil, Nat.add_zero]
    rw [hcnt (m + 1)]
    have : (es.countP fun e => e.i + 1 = m + 1) = es.countP fun e => e.i = m := by
      apply List.countP_congr; intro e _; simp
    rw [this, rowStart, rowStart, countP_lt_succ]

theorem countP_le_of_lt_eq (es : List Entry) (r : Nat) :
    (es.countP fun e => e.i < r) + (es.countP fun e => e.i = r) =
      es.countP fun e => e.i ≤ r := by
  have := countP_lt_succ es r
  have heq : (es.countP fun e => e.i < r + 1) = es.countP fun e => e.i ≤ r := by
    apply List.countP_congr; intro e _; simp; omega
  omega

/-- The scatter pass over row-sorted entries writes each entry at the next
free global offset, so the finished buffers are exactly the sorted entry
values and columns in order. -/
theorem scatter_spec (es : List Entry) (rows : Nat)
    (hsort : es.Pairwise fun a b => a.i ≤ b.i) (hb : ∀ e ∈ es, e.i < rows) :
    ∀ (rest done : List Entry) (st : ScatterState), es = done ++ rest →
    st.values = (done.map fun e => e.v) ++ List.replicate (es.length - done.length) 0 →
    st.colIndex = (done.map fun e => e.j) ++ List.replicate (es.length - done.length) 0 →
    st.cursor.length = rows + 1 →
    (∀ r, r ≤ rows → st.cursor.getD r 0 = rowStart es r + done.countP fun e => e.i = r) →
    (scatter rest st).values = es.map (fun e => e.v) ∧
      (scatter rest st).colIndex = es.map fun e => e.j := by
  intro rest
  induction rest with
  | nil =>
    intro done st hsplit hv hc hlen hcur
    have hdone : done = es := by rw [hsplit, List.append_nil]
    subst hdone
    constructor
    · show st.values = _
      rw [hv]; simp
    · show st.colIndex = _
      rw [hc]; simp
  | cons e rest ih =>
    intro done st hsplit hv hc hlen hcur
    have hei : e.i < rows := hb e (by rw [hsplit]; simp)
    have hpair := hsplit ▸ hsort
    obtain ⟨hpd, hper, hcross⟩ := List.pairwise_append.mp hpair
    have hrestle : ∀ f ∈ rest, e.i ≤ f.i := (List.pairwise_cons.mp hper).1
    have hdonele : ∀ d ∈ done, d.i ≤ e.i := fun d hd => hcross d hd e (by simp)
    -- the write position is the number of entries already placed
    have hkey : rowStart es e.i + (done.countP fun f => f.i = e.i) = done.length := by
      have h1 : rowStart es e.i = done.countP fun f => f.i < e.i := by
        rw [hsplit, rowStart, List.countP_append, List.countP_cons]
        have hz : (rest.countP fun f => f.i < e.i) = 0 := by
          rw [List.countP_eq_zero]
          intro f hf
          simpa using Nat.not_lt.mpr (hrestle f hf)
        simp [hz]
      have h2 : (done.countP fun f => f.i ≤ e.i) = done.length :=
        List.countP_eq_length.mpr fun d hd => by simpa using hdonele d hd
      rw [h1]
      rw [← countP_le_of_lt_eq done e.i] at h2
      omega
    have hk : st.cursor.getD e.i 0 = done.length := by
      rw [hcur e.i (by omega), hkey]
    have hlt : done.length < es.length := by
      rw [hsplit, List.length_append, List.length_cons]; omega
    have hrep : List.replicate (es.length - done.length) (0 : ℚ) =
        0 :: List.replicate (es.length - done.length - 1) 0 := by
      rw [← List.replicate_succ]
      congr 1
      omega
    have hrepn : List.replicate (es.length - done.length) (0 : Nat) =
        0 :: List.replicate (es.length - done.length - 1) 0 := by
      rw [← List.replicate_succ]
      congr 1
      omega
    have hstep : scatter (e :: rest) st = scatter rest (scatterStep st e) := rfl
    rw [hstep]
    apply ih (done ++ [e]) (scatterStep st e)
    · rw [hsplit, List.append_assoc]; rfl
    · show st.values.set (st.cursor.getD e.i 0) e.v = _
      rw [hk, hv, hrep]
      have hlm : done.length = ((done.map fun e => e.v)).length := by simp
      rw [hlm, set_append_mid]
      simp only [List.map_append, List.map_cons, List.map_nil, List.length_append,
        List.length_map, List.length_cons, List.length_nil, List.singleton_append,
        List.append_assoc]
      congr 3
    · show st.colIndex.set (st.cursor.getD e.i 0) e.j = _
      rw [hk, hc, hrepn]
      have hlm : done.length = ((done.map fun e => e.j)).length := by simp
      rw [hlm, set_append_mid]
      simp only [List.map_append, List.map_cons, List.map_nil, List.length_append,
        List.length_map, List.length_cons, List.length_nil, List.singleton_append,
        List.append_assoc]
      congr 3
    · show (st.cursor.set e.i _).length = rows + 1
      rw [List.length_set, hlen]
    · intro r hr
      show (st.cursor.set e.i (st.cursor.getD e.i 0 + 1)).getD r 0 = _
      rw [getD_set]
      by_cases her : e.i = r
      · rw [if_pos ⟨her, by rw [hlen]; omega⟩, hcur e.i (by omega)]
        subst her
        rw [List.countP_append, List.countP_cons]
        simp
        omega
      · rw [if_neg (fun hx => her hx.1), hcur r hr, List.countP_append, List.countP_cons]
        simp [her]

theorem dpos {p : Prop} [Decidable p] (h : p) : decide p = true := decide_eq_true h

theorem dneg {p : Prop} [Decidable p] (h : ¬p) : ¬(decide p = true) := by simp [h]

theorem cooSort_perm (es : List Entry) : (cooSort es).Perm es :=
  List.perm_insertionSort entryLe es

theorem cooSort_mem (es : List Entry) (e : Entry) : e ∈ cooSort es ↔ e ∈ es :=
  (cooSort_perm es).mem_iff

theorem cooSort_sorted (es : List Entry) : (cooSort es).Pairwise entryLe :=
  List.sorted_insertionSort entryLe es

theorem cooSort_rowsLe (es : List Entry) :
    (cooSort es).Pairwise fun a b => a.i ≤ b.i :=
  (cooSort_sorted es).imp fun h => by unfold entryLe at h; omega

theorem cooSort_length (es : List Entry) : (cooSort es).length = es.length :=
  (cooSort_perm es).length_eq

/-- The finished `fromCOO` buffers: values and columns are the sorted entry
list in order, and `rowPtr` holds the cumulative row starts. -/
theorem cooBuild_spec (rows cols : Nat) (es : List Entry)
    (hb : ∀ e ∈ es, e.i < rows) :
    (cooBuild rows cols es).values = (cooSort es).map (fun e => e.v) ∧
    (cooBuild rows cols es).colIndex = (cooSort es).map (fun e => e.j) ∧
    (∀ t, t ≤ rows → (cooBuild rows cols es).rowPtr.getD t 0 = rowStart (cooSort es) t) ∧
    (cooBuild rows cols es).rowPtr.length = rows + 1 := by
  have hb' : ∀ e ∈ cooSort es, e.i < rows := fun e he => hb e ((cooSort_mem es e).mp he)
  have hlen : (prefixPass rows (bumpCounts (cooSort es)
      (List.replicate (rows + 1) 0))).length = rows + 1 := by
    rw [prefixPass_length, bumpCounts_length, List.length_replicate]
  have hget : ∀ t, t ≤ rows → (prefixPass rows (bumpCounts (cooSort es)
      (List.replicate (rows + 1) 0))).getD t 0 = rowStart (cooSort es) t :=
    fun t ht => cooBuild_rowPtr_getD rows (cooSort es) hb' t ht
  have hnnz : (prefixPass rows (bumpCounts (cooSort es)
      (List.replicate (rows + 1) 0))).getD rows 0 = (cooSort es).length := by
    rw [hget rows (le_refl rows), rowStart, List.countP_eq_length.mpr]
    intro e he
    simpa using hb' e he
  have hsc := scatter_spec (cooSort es) rows (cooSort_rowsLe es) hb' (cooSort es) []
    ⟨List.replicate ((prefixPass rows (bumpCounts (cooSort es)
        (List.replicate (rows + 1) 0))).getD rows 0) 0,
      List.replicate ((prefixPass rows (bumpCounts (cooSort es)
        (List.replicate (rows + 1) 0))).getD rows 0) 0,
      prefixPass rows (bumpCounts (cooSort es) (List.replicate (rows + 1) 0))⟩
    rfl (by rw [hnnz]; simp) (by rw [hnnz]; simp) hlen
    (by intro r hr; rw [hget r hr]; simp)
  refine ⟨hsc.1, hsc.2, hget, hlen⟩

theorem filter_eq_nil_of (l : List Entry) (p : Entry → Bool) (h : ∀ e ∈ l, ¬p e) :
    l.filter p = [] :=
  List.filter_eq_nil_iff.mpr h

/-- On a row-sorted list whose entries all lie in rows `≥ r`, the first
`countP (row < r+1)` entries are exactly the row-`r` entries. -/
theorem sorted_take_eq_filter (r : Nat) :
    ∀ (l : List Entry), l.Pairwise (fun a b => a.i ≤ b.i) → (∀ e ∈ l, r ≤ e.i) →
    l.take (l.countP fun e => e.i < r + 1) = l.filter fun e => e.i = r := by
  intro l
  induction l with
  | nil => simp
  | cons h t ih =>
    intro hp hge
    have hple := (List.pairwise_cons.mp hp).1
    have hpt := (List.pairwise_cons.mp hp).2
    have hhr : r ≤ h.i := hge h (by simp)
    by_cases hcase : h.i = r
    · have c1 : ((h :: t).countP fun e => e.i < r + 1) =
          (t.countP fun e => e.i < r + 1) + 1 := by
        rw [List.countP_cons, if_pos (dpos (by omega : h.i < r + 1))]
      rw [c1, List.take_succ_cons, List.filter_cons, if_pos (dpos hcase)]
      rw [ih hpt (fun e he => hge e (by simp [he]))]
    · have hgt : r < h.i := by omega
      have hz : ((h :: t).countP fun e => e.i < r + 1) = 0 := by
        rw [List.countP_eq_zero]
        intro e he
        rcases List.mem_cons.mp he with h1 | h1
        · subst h1; exact dneg (by omega)
        · have := hple e h1
          exact dneg (by omega)
      rw [hz, List.take_zero]
      rw [filter_eq_nil_of]
      intro e he
      rcases List.mem_cons.mp he with h1 | h1
      · subst h1; exact dneg (by omega)
      · have := hple e h1
        exact dneg (by omega)

/-- Slicing a row-sorted list at the cumulative row starts yields the
entries of that row. -/
theorem sorted_slice_eq_filter (r : Nat) :
    ∀ (l : List Entry), l.Pairwise (fun a b => a.i ≤ b.i) →
    (l.drop (l.countP fun e => e.i < r)).take
      ((l.countP fun e => e.i < r + 1) - (l.countP fun e => e.i < r)) =
      l.filter fun e => e.i = r := by
  intro l
  induction l with
  | nil => simp
  | cons h t ih =>
    intro hp
    have hple := (List.pairwise_cons.mp hp).1
    have hpt := (List.pairwise_cons.mp hp).2
    rcases Nat.lt_trichotomy h.i r with hlt | heq | hgt
    · have c1 : ((h :: t).countP fun e => e.i < r) =
          (t.countP fun e => e.i < r) + 1 := by
        rw [List.countP_cons, if_pos (dpos hlt)]
      have c2 : ((h :: t).countP fun e => e.i < r + 1) =
          (t.countP fun e => e.i < r + 1) + 1 := by
        rw [List.countP_cons, if_pos (dpos (by omega : h.i < r + 1))]
      rw [c1, c2, List.drop_succ_cons]
      have c3 : (t.countP fun e => e.i < r + 1) + 1 - ((t.countP fun e => e.i < r) + 1) =
          (t.countP fun e => e.i < r + 1) - (t.countP fun e => e.i < r) := by omega
      rw [c3, List.filter_cons, if_neg (dneg (by omega : ¬h.i = r))]
      exact ih hpt
    · have hz : ((h :: t).countP fun e => e.i < r) = 0 := by
        rw [List.countP_eq_zero]
        intro e he
        rcases List.mem_cons.mp he with h1 | h1
        · subst h1; exact dneg (by omega)
        · have := hple e h1
          exact dneg (by omega)
      rw [hz, List.drop_zero, Nat.sub_zero]
      exact sorted_take_eq_filter r (h :: t) hp
        (fun e he => by
          rcases List.mem_cons.mp he with h1 | h1
          · subst h1; omega
          · have := hple e h1; omega)
    · have hz : ((h :: t).countP fun e => e.i < r) = 0 := by
        rw [List.countP_eq_zero]
        intro e he
        rcases List.mem_cons.mp he with h1 | h1
        · subst h1; exact dneg (by omega)
        · have := hple e h1
          exact dneg (by omega)
      have hz1 : ((h :: t).countP fun e => e.i < r + 1) = 0 := by
        rw [List.countP_eq_zero]
        intro e he
        rcases List.mem_cons.mp he with h1 | h1
        · subst h1; exact dneg (by omega)
        · have := hple e h1
          exact dneg (by omega)
      rw [hz, hz1]
      simp only [Nat.sub_zero, List.drop_zero, List.take_zero]
      rw [filter_eq_nil_of]
      intro e he
      rcases List.mem_cons.mp he with h1 | h1
      · subst h1; exact dneg (by omega)
      · have := hple e h1
        exact dneg (by omega)

/-- The row slices of a `cooBuild` result are the per-row entries of the
sorted input. -/
theorem cooBuild_rowPairs (rows cols : Nat) (es : List Entry)
    (hb : ∀ e ∈ es, e.i < rows) (r : Nat) (hr : r < rows) :
    (cooBuild rows cols es).rowPairs r =
      ((cooSort es).filter fun e => e.i = r).map fun e => (e.j, e.v) := by
  obtain ⟨hv, hc, hget, hlen⟩ := cooBuild_spec rows cols es hb
  unfold rowPairs
  rw [hv, hc, hget r (by omega), hget (r + 1) (by omega)]
  rw [List.zip_map']
  rw [← List.map_drop, ← List.map_take]
  simp only [rowStart]
  rw [sorted_slice_eq_filter r (cooSort es) (cooSort_rowsLe es)]

theorem cooBuild_rows (rows cols : Nat) (es : List Entry) :
    (cooBuild rows cols es).rows = rows := rfl

theorem cooBuild_cols (rows cols : Nat) (es : List Entry) :
    (cooBuild rows cols es).cols = cols := rfl

/-- A `cooBuild` result is structurally valid. -/
theorem cooBuild_structural (rows cols : Nat) (es : List Entry)
    (hb : ∀ e ∈ es, e.i < rows) : Structural (cooBuild rows cols es) := by
  obtain ⟨hv, hc, hget, hlen⟩ := cooBuild_spec rows cols es hb
  have hb' : ∀ e ∈ cooSort es, e.i < rows := fun e he => hb e ((cooSort_mem es e).mp he)
  simp only [Structural, cooBuild_rows]
  refine ⟨?_, hlen, ?_, ?_, ?_⟩
  · rw [hv, hc]; simp
  · rw [hget 0 (by omega)]
    simp [rowStart, List.countP_eq_zero]
  · rw [hget rows (le_refl rows), hv, List.length_map, rowStart]
    exact List.countP_eq_length.mpr fun e he => dpos (hb' e he)
  · intro r hr
    rw [hget r (by omega), hget (r + 1) (by omega)]
    exact List.countP_mono_left fun e he hp => dpos (by have := of_decide_eq_true hp; omega)

theorem fromCOO_eq_ok (rows cols : Nat) (es : List Entry)
    (h : ∀ e ∈ es, e.i < rows ∧ e.j < cols) :
    fromCOO rows cols es = .ok (cooBuild rows cols es) := by
  unfold fromCOO
  rw [if_pos]
  rw [List.all_eq_true]
  intro e he
  have := h e he
  simp
  omega

theorem fromCOO_eq_error (rows cols : Nat) (es : List Entry) (e : Entry)
    (he : e ∈ es) (h : ¬(e.i < rows ∧ e.j < cols)) :
    fromCOO rows cols es = .error "Indice hors limites" := by
  unfold fromCOO
  rw [if_neg]
  intro hall
  rw [List.all_eq_true] at hall
  have := hall e he
  simp at this
  omega

theorem fromCOO_ok_elim (rows cols : Nat) (es : List Entry) (C : CSRMatrix)
    (h : fromCOO rows cols es = .ok C) :
    (∀ e ∈ es, e.i < rows ∧ e.j < cols) ∧ C = cooBuild rows cols es := by
  unfold fromCOO at h
  by_cases hall : es.all fun e => e.i < rows && e.j < cols
  · rw [if_pos hall] at h
    rw [List.all_eq_true] at hall
    refine ⟨fun e he => by have := hall e he; simp at this; omega, ?_⟩
    cases h
    rfl
  · rw [if_neg hall] at h
    cases h

/-- Summing an indicator over `range n` picks out the indexed term. -/
theorem sum_map_range_single {M : Type} [AddCommMonoid M] (n r : Nat) (c : M) :
    ((List.range n).map fun s => if r = s then c else 0).sum =
      if r < n then c else 0 := by
  induction n with
  | zero => simp
  | succ m ih =>
    rw [List.range_succ, List.map_append, List.sum_append, ih]
    simp only [List.map_cons, List.map_nil, List.sum_cons, List.sum_nil]
    by_cases h : r = m
    · subst h
      rw [if_neg (by omega), if_pos rfl, if_pos (by omega)]
      simp
    · rw [if_neg h]
      by_cases h2 : r < m
      · rw [if_pos h2, if_pos (by omega)]
        simp
      · rw [if_neg h2, if_neg (by omega)]
        simp

/-- Splitting a list of in-bounds entries by row and re-concatenating yields
a permutation of the list. -/
theorem flatten_filter_rows_perm (l : List Entry) (n : Nat)
    (h : ∀ e ∈ l, e.i < n) :
    (((List.range n).map fun r => l.filter fun e => e.i = r).flatten).Perm l := by
  rw [List.perm_iff_count]
  intro a
  rw [List.count_flatten, List.map_map]
  have hone : ∀ r, List.count a (l.filter fun e => e.i = r) =
      if a.i = r then List.count a l else 0 := by
    intro r
    by_cases hr : a.i = r
    · rw [if_pos hr, List.count_filter (p := fun (e : Entry) => decide (e.i = r)) (dpos hr)]
    · rw [if_neg hr, List.count_eq_zero]
      intro hmem
      exact hr (of_decide_eq_true (List.mem_filter.mp hmem).2)
  have : (List.map ((fun ll => List.count a ll) ∘ fun r => l.filter fun e => e.i = r)
      (List.range n)).sum =
      ((List.range n).map fun r => if a.i = r then List.count a l else 0).sum := by
    apply congrArg
    apply List.map_congr_left
    intro r _
    exact hone r
  rw [this, sum_map_range_single]
  by_cases hmem : a ∈ l
  · rw [if_pos (h a hmem)]
  · rw [List.count_eq_zero.mpr hmem]
    simp

/-- `entriesOf` of a `cooBuild` result enumerates the sorted input entries
(up to the by-row regrouping, a permutation). -/
theorem cooBuild_entriesOf_perm (rows cols : Nat) (es : List Entry)
    (hb : ∀ e ∈ es, e.i < rows) :
    (cooBuild rows cols es).entriesOf.Perm (cooSort es) := by
  have hb' : ∀ e ∈ cooSort es, e.i < rows := fun e he => hb e ((cooSort_mem es e).mp he)
  unfold entriesOf
  have hrw : (List.range (cooBuild rows cols es).rows).map
      (fun r => ((cooBuild rows cols es).rowPairs r).map fun p => Entry.mk r p.1 p.2) =
      (List.range rows).map fun r => (cooSort es).filter fun e => e.i = r := by
    rw [cooBuild_rows]
    apply List.map_congr_left
    intro r hr
    rw [cooBuild_rowPairs rows cols es hb r (List.mem_range.mp hr)]
    rw [List.map_map]
    have hid : ∀ e ∈ (cooSort es).filter fun e => e.i = r,
        ((fun p => Entry.mk r p.1 p.2) ∘ fun e => (e.j, e.v)) e = id e := by
      intro e he
      have hir : e.i = r := of_decide_eq_true (List.mem_filter.mp he).2
      cases e
      simp at hir ⊢
      exact hir.symm
    rw [List.map_congr_left hid, List.map_id]
  rw [hrw]
  exact flatten_filter_rows_perm (cooSort es) rows hb'

theorem rowVal_perm (l l' : List (Nat × ℚ)) (h : l.Perm l') (j : Nat) :
    rowVal l j = rowVal l' j :=
  List.Perm.sum_eq (List.Perm.map _ (List.Perm.filter _ h))

theorem entryVal_perm (es es' : List Entry) (h : es.Perm es') (i j : Nat) :
    entryVal es i j = entryVal es' i j :=
  List.Perm.sum_eq (List.Perm.map _ (List.Perm.filter _ h))

/-- On a strictly column-sorted row, the early-exit scan of `get` returns
the (unique) stored value at the column, 0 when absent. -/
theorem scanRow_eq_rowVal (l : List (Nat × ℚ))
    (hs : (l.map Prod.fst).Pairwise (· < ·)) (j : Nat) :
    scanRow l j = rowVal l j := by
  induction l with
  | nil => rfl
  | cons p rest ih =>
    obtain ⟨c, v⟩ := p
    have h2 : (c :: rest.map Prod.fst).Pairwise (· < ·) := hs
    have hlt : ∀ q ∈ rest, c < q.1 := by
      intro q hq
      exact (List.pairwise_cons.mp h2).1 q.1 (List.mem_map.mpr ⟨q, hq, rfl⟩)
    have hpt : (rest.map Prod.fst).Pairwise (· < ·) :=
      (List.pairwise_cons.mp h2).2
    show (if c = j then v else if j < c then 0 else scanRow rest j) = _
    by_cases hcj : c = j
    · subst hcj
      rw [if_pos rfl]
      unfold rowVal
      rw [List.filter_cons, if_pos (dpos rfl)]
      have hrest : rest.filter (fun p => p.1 = c) = [] :=
        List.filter_eq_nil_iff.mpr fun q hq => dneg (by have := hlt q hq; omega)
      simp [hrest]
    · rw [if_neg hcj]
      by_cases hjc : j < c
      · rw [if_pos hjc]
        unfold rowVal
        rw [List.filter_cons, if_neg (dneg hcj)]
        have hrest : rest.filter (fun p => p.1 = j) = [] :=
          List.filter_eq_nil_iff.mpr fun q hq => dneg (by have := hlt q hq; omega)
        simp [hrest]
      · rw [if_neg hjc, ih hpt]
        unfold rowVal
        rw [List.filter_cons, if_neg (dneg hcj)]

theorem rowPairs_sublist_zip (A : CSRMatrix) (r : Nat) :
    (A.rowPairs r).Sublist (A.colIndex.zip A.values) :=
  (List.take_sublist _ _).trans (List.drop_sublist _ _)

theorem rowPairs_mem_values (A : CSRMatrix) (r : Nat) (p : Nat × ℚ)
    (hp : p ∈ A.rowPairs r) : p.2 ∈ A.values :=
  (List.of_mem_zip ((rowPairs_sublist_zip A r).subset hp)).2

theorem rowPairs_mem_colIndex (A : CSRMatrix) (r : Nat) (p : Nat × ℚ)
    (hp : p ∈ A.rowPairs r) : p.1 ∈ A.colIndex :=
  (List.of_mem_zip ((rowPairs_sublist_zip A r).subset hp)).1

theorem mem_entriesOf (A : CSRMatrix) (e : Entry) (he : e ∈ A.entriesOf) :
    e.i < A.rows ∧ (e.j, e.v) ∈ A.rowPairs e.i := by
  unfold entriesOf at he
  obtain ⟨l, hl, hel⟩ := List.mem_flatten.mp he
  obtain ⟨r, hr, rfl⟩ := List.mem_map.mp hl
  obtain ⟨p, hp, rfl⟩ := List.mem_map.mp hel
  exact ⟨List.mem_range.mp hr, hp⟩

theorem entriesOf_values_mem (A : CSRMatrix) (e : Entry) (he : e ∈ A.entriesOf) :
    e.v ∈ A.values :=
  rowPairs_mem_values A e.i (e.j, e.v) (mem_entriesOf A e he).2

/-- Stored entries of a row-sorted CSR matrix have strictly increasing
lexicographic positions (rows grouped ascending, columns strict inside). -/
theorem entriesOf_pairwise_lt (A : CSRMatrix) (hs : RowsSorted A) :
    A.entriesOf.Pairwise entryLt := by
  unfold entriesOf
  rw [List.pairwise_flatten]
  constructor
  · intro l hl
    obtain ⟨r, hr, rfl⟩ := List.mem_map.mp hl
    rw [List.pairwise_map]
    have := hs r (List.mem_range.mp hr)
    rw [List.pairwise_map] at this
    exact this.imp fun h => by unfold entryLt; right; exact ⟨rfl, h⟩
  · rw [List.pairwise_map]
    have := List.pairwise_lt_range A.rows
    exact this.imp fun {a b} h => by
      intro x hx y hy
      obtain ⟨p, hp, rfl⟩ := List.mem_map.mp hx
      obtain ⟨q, hq, rfl⟩ := List.mem_map.mp hy
      unfold entryLt
      left
      exact h

theorem pairwise_lt_posOf_nodup (es : List Entry) (h : es.Pairwise entryLt) :
    (es.map posOf).Nodup := by
  show (es.map posOf).Pairwise (· ≠ ·)
  rw [List.pairwise_map]
  refine h.imp fun hab => ?_
  intro hpos
  unfold entryLt at hab
  unfold posOf at hpos
  have h1 := congrArg Prod.fst hpos
  have h2 := congrArg Prod.snd hpos
  simp at h1 h2
  omega

/-- The value stored at `(r, j)` seen through `entriesOf` equals the row
slice's column sum: entry lookup factors through the per-row pairs. -/
theorem entryVal_entriesOf (A : CSRMatrix) (r j : Nat) (hr : r < A.rows) :
    entryVal A.entriesOf r j = rowVal (A.rowPairs r) j := by
  unfold entryVal entriesOf
  rw [List.filter_flatten, List.map_flatten, List.sum_flatten, List.map_map, List.map_map,
    List.map_map]
  trans ((List.range A.rows).map fun r' => if r = r' then rowVal (A.rowPairs r) j else 0).sum
  · apply congrArg List.sum
    apply List.map_congr_left
    intro r' _
    simp only [Function.comp_apply]
    show (List.map (fun e => e.v)
      (List.filter (fun e => decide (e.i = r ∧ e.j = j))
        ((A.rowPairs r').map fun p => Entry.mk r' p.1 p.2))).sum = _
    rw [List.filter_map, List.map_map]
    by_cases heq : r = r'
    · subst heq
      rw [if_pos rfl]
      have hfc : List.filter
          ((fun e => decide (e.i = r ∧ e.j = j)) ∘ fun p => Entry.mk r p.1 p.2)
          (A.rowPairs r) = List.filter (fun p => p.1 = j) (A.rowPairs r) := by
        apply List.filter_congr
        intro p _
        show decide (r = r ∧ p.1 = j) = decide (p.1 = j)
        simp
      rw [hfc]
      rfl
    · rw [if_neg heq]
      have hnil : List.filter
          ((fun e => decide (e.i = r ∧ e.j = j)) ∘ fun p => Entry.mk r' p.1 p.2)
          (A.rowPairs r') = [] := by
        apply List.filter_eq_nil_iff.mpr
        intro p _
        show ¬(decide (r' = r ∧ p.1 = j) = true)
        exact dneg (fun hc => heq hc.1.symm)
      rw [hnil]
      rfl
  · rw [sum_map_range_single, if_pos hr]

/-- On a row-sorted CSR matrix, `get`'s row scan returns the total value the
stored entries give position `(i, j)`. -/
theorem getv_eq_entryVal (A : CSRMatrix) (hs : RowsSorted A) (i j : Nat)
    (hi : i < A.rows) :
    A.getv i j = entryVal A.entriesOf i j := by
  unfold getv
  rw [scanRow_eq_rowVal _ (hs i hi), entryVal_entriesOf A i j hi]

/-- With pairwise-distinct positions, every row of a `cooBuild` result has
strictly increasing columns. -/
theorem cooBuild_rowsSorted (rows cols : Nat) (es : List Entry)
    (hb : ∀ e ∈ es, e.i < rows) (hnd : (es.map posOf).Nodup) :
    RowsSorted (cooBuild rows cols es) := by
  intro r hr
  rw [cooBuild_rows] at hr
  rw [cooBuild_rowPairs rows cols es hb r hr, List.map_map]
  rw [List.pairwise_map]
  have hle : ((cooSort es).filter fun e => e.i = r).Pairwise entryLe :=
    (cooSort_sorted es).sublist (List.filter_sublist _)
  have hndf : (((cooSort es).filter fun e => e.i = r).map posOf).Nodup := by
    have hperm : ((cooSort es).map posOf).Perm (es.map posOf) :=
      (cooSort_perm es).map posOf
    have hnds : ((cooSort es).map posOf).Nodup := (hperm.nodup_iff).mpr hnd
    exact hnds.sublist (List.Sublist.map posOf (List.filter_sublist _))
  have hne : ((cooSort es).filter fun e => e.i = r).Pairwise
      fun a b => posOf a ≠ posOf b := by
    have := List.pairwise_map.mp hndf
    exact this
  refine ((hle.and hne).imp_of_mem ?_)
  intro a b ha hb' hab
  have hia : a.i = r := of_decide_eq_true (List.mem_filter.mp ha).2
  have hib : b.i = r := of_decide_eq_true (List.mem_filter.mp hb').2
  obtain ⟨hle2, hne2⟩ := hab
  unfold entryLe at hle2
  show a.j < b.j
  have : a.j ≠ b.j := fun hjj => hne2 (by unfold posOf; rw [hia, hib, hjj])
  omega

/-- Every column stored by a `cooBuild` result comes from an input entry. -/
theorem cooBuild_colsBounded (rows cols : Nat) (es : List Entry)
    (hb : ∀ e ∈ es, e.i < rows) (hbj : ∀ e ∈ es, e.j < cols) :
    ColsBounded (cooBuild rows cols es) := by
  intro r hr p hp
  rw [cooBuild_rows] at hr
  rw [cooBuild_rowPairs rows cols es hb r hr] at hp
  obtain ⟨e, he, rfl⟩ := List.mem_map.mp hp
  have : e ∈ es := (cooSort_mem es e).mp (List.mem_filter.mp he).1
  rw [cooBuild_cols]
  exact hbj e this

/-- A `cooBuild` result stores exactly the input values. -/
theorem cooBuild_noZero (rows cols : Nat) (es : List Entry)
    (hb : ∀ e ∈ es, e.i < rows) (hv : ∀ e ∈ es, e.v ≠ 0) :
    NoZeroStored (cooBuild rows cols es) := by
  intro v hmem
  rw [(cooBuild_spec rows cols es hb).1] at hmem
  obtain ⟨e, he, rfl⟩ := List.mem_map.mp hmem
  exact hv e ((cooSort_mem es e).mp he)

/-- Full well-formedness of a `cooBuild` result from in-bounds entries with
pairwise-distinct positions. -/
theorem cooBuild_wf (rows cols : Nat) (es : List Entry)
    (h : ∀ e ∈ es, e.i < rows ∧ e.j < cols) (hnd : (es.map posOf).Nodup) :
    Wf (cooBuild rows cols es) :=
  ⟨cooBuild_structural rows cols es (fun e he => (h e he).1),
    cooBuild_rowsSorted rows cols es (fun e he => (h e he).1) hnd,
    cooBuild_colsBounded rows cols es (fun e he => (h e he).1) (fun e he => (h e he).2)⟩

/-- Element lookup on a `cooBuild` result: the value of the (unique) entry
at the position, 0 when absent. -/
theorem cooBuild_getv (rows cols : Nat) (es : List Entry)
    (hb : ∀ e ∈ es, e.i < rows) (hnd : (es.map posOf).Nodup)
    (i j : Nat) (hi : i < rows) :
    (cooBuild rows cols es).getv i j = entryVal es i j := by
  rw [getv_eq_entryVal (cooBuild rows cols es) (cooBuild_rowsSorted rows cols es hb hnd)
    i j (by rw [cooBuild_rows]; exact hi)]
  rw [entryVal_perm _ _ (cooBuild_entriesOf_perm rows cols es hb) i j]
  exact entryVal_perm _ _ (cooSort_perm es) i j

/-- Merging a row slice with itself under `sub` cancels every column to the
exact zero that the merge drops. -/
theorem mergePairs_self_sub (l : List (Nat × ℚ)) :
    mergePairs (fun v => -v) (· - ·) l l = [] := by
  induction l with
  | nil => simp [mergePairs]
  | cons p rest ih =>
    obtain ⟨j, v⟩ := p
    show mergePairs (fun v => -v) (· - ·) ((j, v) :: rest) ((j, v) :: rest) = []
    unfold mergePairs
    rw [if_neg (lt_irrefl j), if_neg (lt_irrefl j)]
    simp [ih]

/-- Claim C7 core: subtracting a CSR matrix from itself produces the empty
entry list, and the rebuild of the empty list. -/
theorem sub_self_eq (A : CSRMatrix) :
    A.sub A = Except.ok (cooBuild A.rows A.cols []) := by
  unfold sub
  rw [if_pos ⟨rfl, rfl⟩]
  have hz : mergedEntries (fun v => -v) (· - ·) A A = [] := by
    unfold mergedEntries
    apply List.flatten_eq_nil_iff.mpr
    intro l hl
    obtain ⟨i, _, rfl⟩ := List.mem_map.mp hl
    rw [mergePairs_self_sub]
    rfl
  rw [hz]
  exact fromCOO_eq_ok A.rows A.cols [] (by simp)

end CSRMatrix

namespace CSRMatrix

theorem pos_encode_lt (rows cols i j : Nat) (hi : i < rows) (hj : j < cols) :
    i * cols + j < rows * cols := by
  have h1 : i * cols + j < (i + 1) * cols := by rw [Nat.succ_mul]; omega
  have h2 : (i + 1) * cols ≤ rows * cols := Nat.mul_le_mul_right cols hi
  omega

theorem pos_encode_inj (cols i j i' j' : Nat) (hj : j < cols) (hj' : j' < cols)
    (h : i * cols + j = i' * cols + j') : i = i' ∧ j = j' := by
  have hii : i = i' := by
    by_contra hne
    rcases Nat.lt_or_ge i i' with hlt | hge
    · have h1 : i * cols + j < (i + 1) * cols := by rw [Nat.succ_mul]; omega
      have h2 : (i + 1) * cols ≤ i' * cols := Nat.mul_le_mul_right cols hlt
      omega
    · have hlt : i' < i := by omega
      have h1 : i' * cols + j' < (i' + 1) * cols := by rw [Nat.succ_mul]; omega
      have h2 : (i' + 1) * cols ≤ i * cols := Nat.mul_le_mul_right cols hlt
      omega
  subst hii
  omega

theorem toDense_foldl_length (es : List Entry) (cols : Nat) (init : List ℚ) :
    (es.foldl (fun d e => d.set (e.i * cols + e.j) e.v) init).length = init.length := by
  induction es generalizing init with
  | nil => rfl
  | cons f rest ih =>
    show (rest.foldl _ (init.set (f.i * cols + f.j) f.v)).length = _
    rw [ih, List.length_set]

/-- Positions never written by the `toDense` scatter keep the initial
buffer's value. -/
theorem toDense_foldl_getD_notmem (es : List Entry) (cols : Nat) (init : List ℚ) (p : Nat)
    (h : ∀ e ∈ es, e.i * cols + e.j ≠ p) :
    (es.foldl (fun d e => d.set (e.i * cols + e.j) e.v) init).getD p 0 = init.getD p 0 := by
  induction es generalizing init with
  | nil => rfl
  | cons f rest ih =>
    show (rest.foldl _ (init.set (f.i * cols + f.j) f.v)).getD p 0 = _
    rw [ih _ (fun e he => h e (by simp [he])), getD_set,
      if_neg (fun hc => h f (by simp) hc.1)]

/-- With pairwise-distinct write positions, the `toDense` scatter leaves each
entry's value at its position. -/
theorem toDense_foldl_getD_mem (es : List Entry) (cols : Nat) (e : Entry)
    (he : e ∈ es) :
    ∀ init : List ℚ, (es.map fun f => f.i * cols + f.j).Nodup →
    (∀ f ∈ es, f.i * cols + f.j < init.length) →
    (es.foldl (fun d f => d.set (f.i * cols + f.j) f.v) init).getD (e.i * cols + e.j) 0 =
      e.v := by
  induction es with
  | nil => cases he
  | cons f rest ih =>
    intro init hnd hin
    have hndt : (rest.map fun g => g.i * cols + g.j).Nodup :=
      (List.nodup_cons.mp hnd).2
    have hfr : (f.i * cols + f.j) ∉ rest.map fun g => g.i * cols + g.j :=
      (List.nodup_cons.mp hnd).1
    show (rest.foldl _ (init.set (f.i * cols + f.j) f.v)).getD (e.i * cols + e.j) 0 = e.v
    rcases List.mem_cons.mp he with rfl | hmem
    · rw [toDense_foldl_getD_notmem]
      · rw [getD_set, if_pos ⟨rfl, hin e (by simp)⟩]
      · intro g hg hc
        exact hfr (List.mem_map.mpr ⟨g, hg, hc⟩)
    · exact ih hmem _ hndt
        (fun g hg => by rw [List.length_set]; exact hin g (by simp [hg]))

/-- Summing the values of entries that all share one position, with
pairwise-distinct positions: there is exactly one such entry. -/
theorem sum_values_singleton (fl : List Entry) (e : Entry) (he : e ∈ fl)
    (hsame : ∀ x ∈ fl, posOf x = posOf e) (hnd : (fl.map posOf).Nodup) :
    (fl.map fun f => f.v).sum = e.v := by
  match fl, he with
  | [x], hm =>
    have hex : e = x := by simpa using hm
    subst hex
    simp
  | x :: y :: t, _ =>
    exfalso
    have hpair : (List.map posOf (x :: y :: t)).Pairwise (· ≠ ·) := hnd
    rw [List.map_cons, List.map_cons] at hpair
    have hxy : posOf x ≠ posOf y := (List.pairwise_cons.mp hpair).1 (posOf y) (by simp)
    exact hxy ((hsame x (by simp)).trans (hsame y (by simp)).symm)

/-- With pairwise-distinct positions, `entryVal` at a stored entry's
position is that entry's value. -/
theorem entryVal_single (es : List Entry) (hnd : (es.map posOf).Nodup) (e : Entry)
    (he : e ∈ es) : entryVal es e.i e.j = e.v := by
  unfold entryVal
  apply sum_values_singleton _ e
  · exact List.mem_filter.mpr ⟨he, dpos ⟨rfl, rfl⟩⟩
  · intro x hx
    obtain ⟨hxe⟩ := List.mem_filter.mp hx
    have := of_decide_eq_true (List.mem_filter.mp hx).2
    unfold posOf
    rw [this.1, this.2]
  · exact hnd.sublist (List.Sublist.map posOf (List.filter_sublist es))

theorem entryVal_zero (es : List Entry) (i j : Nat)
    (h : ∀ e ∈ es, ¬(e.i = i ∧ e.j = j)) : entryVal es i j = 0 := by
  unfold entryVal
  rw [List.filter_eq_nil_iff.mpr (fun e he => dneg (h e he))]
  rfl

theorem entriesOf_bounds (A : CSRMatrix) (hcb : ColsBounded A) (e : Entry)
    (he : e ∈ A.entriesOf) : e.i < A.rows ∧ e.j < A.cols := by
  obtain ⟨hi, hp⟩ := mem_entriesOf A e he
  exact ⟨hi, hcb e.i hi (e.j, e.v) hp⟩

theorem entriesOf_encodePos_nodup (A : CSRMatrix) (hs : RowsSorted A)
    (hcb : ColsBounded A) :
    (A.entriesOf.map fun f => f.i * A.cols + f.j).Nodup := by
  show (A.entriesOf.map fun f => f.i * A.cols + f.j).Pairwise (· ≠ ·)
  rw [List.pairwise_map]
  refine ((entriesOf_pairwise_lt A hs).imp_of_mem ?_)
  intro a b ha hb hab heq
  have hja := (entriesOf_bounds A hcb a ha).2
  have hjb := (entriesOf_bounds A hcb b hb).2
  obtain ⟨h1, h2⟩ := pos_encode_inj A.cols a.i a.j b.i b.j hja hjb heq
  unfold entryLt at hab
  omega

/-- Densify agrees with element lookup everywhere on a well-formed CSR
matrix. -/
theorem toDense_entry_eq_getv (A : CSRMatrix) (hw : Wf A) (i j : Nat)
    (hi : i < A.rows) (hj : j < A.cols) :
    A.toDense.entry i j = A.getv i j := by
  obtain ⟨hst, hs, hcb⟩ := hw
  have hnd := entriesOf_encodePos_nodup A hs hcb
  have hndp : (A.entriesOf.map posOf).Nodup := by
    show (A.entriesOf.map posOf).Pairwise (· ≠ ·)
    rw [List.pairwise_map]
    refine ((entriesOf_pairwise_lt A hs).imp_of_mem ?_)
    intro a b _ _ hab heq
    unfold entryLt at hab
    unfold posOf at heq
    have h1 := congrArg Prod.fst heq
    have h2 := congrArg Prod.snd heq
    simp at h1 h2
    omega
  show (A.entriesOf.foldl (fun d e => d.set (e.i * A.cols + e.j) e.v)
    (List.replicate (A.rows * A.cols) 0)).getD (i * A.cols + j) 0 = _
  rw [getv_eq_entryVal A hs i j hi]
  by_cases hex : ∃ e ∈ A.entriesOf, e.i = i ∧ e.j = j
  · obtain ⟨e, he, hei, hej⟩ := hex
    rw [show i * A.cols + j = e.i * A.cols + e.j by rw [hei, hej]]
    rw [toDense_foldl_getD_mem A.entriesOf A.cols e he (List.replicate (A.rows * A.cols) 0)
      hnd (fun f hf => by
        rw [List.length_replicate]
        exact pos_encode_lt A.rows A.cols f.i f.j (entriesOf_bounds A hcb f hf).1
          (entriesOf_bounds A hcb f hf).2)]
    rw [← hei, ← hej, entryVal_single A.entriesOf hndp e he]
  · rw [toDense_foldl_getD_notmem]
    · rw [entryVal_zero A.entriesOf i j (fun e he hc => hex ⟨e, he, hc⟩)]
      simp only [List.getD_eq_getElem?_getD, List.getElem?_replicate]
      split <;> rfl
    · intro e he hc
      obtain ⟨h1, h2⟩ := pos_encode_inj A.cols e.i e.j i j
        (entriesOf_bounds A hcb e he).2 hj hc
      exact hex ⟨e, he, h1, h2⟩

theorem toDense_rows (A : CSRMatrix) : A.toDense.rows = A.rows := rfl

theorem toDense_cols (A : CSRMatrix) : A.toDense.cols = A.cols := rfl

theorem toDense_data_length (A : CSRMatrix) :
    A.toDense.data.length = A.rows * A.cols := by
  show (A.entriesOf.foldl _ (List.replicate (A.rows * A.cols) 0)).length = _
  rw [toDense_foldl_length, List.length_replicate]

end CSRMatrix

namespace CSRMatrix

theorem filterMap_if {α β : Type} (l : List α) (c : α → ℚ) (g : α → β) :
    l.filterMap (fun x => if c x = 0 then none else some (g x)) =
      (l.filter fun x => ¬(c x = 0)).map g := by
  induction l with
  | nil => rfl
  | cons x rest ih =>
    rw [List.filterMap_cons, List.filter_cons]
    by_cases h : c x = 0
    · rw [if_pos h, if_neg (dneg (fun hc => hc h))]
      exact ih
    · rw [if_neg h, if_pos (dpos h), List.map_cons, ih]

theorem mem_denseTriplets (A : DenseMatrix) (e : Entry) :
    e ∈ denseTriplets A ↔
      e.i < A.rows ∧ e.j < A.cols ∧ A.entry e.i e.j ≠ 0 ∧ e.v = A.entry e.i e.j := by
  unfold denseTriplets
  rw [List.mem_flatten]
  constructor
  · rintro ⟨l, hl, hel⟩
    obtain ⟨i, hi, rfl⟩ := List.mem_map.mp hl
    obtain ⟨j, hj, hsome⟩ := List.mem_filterMap.mp hel
    by_cases h : A.entry i j = 0
    · rw [if_pos h] at hsome
      cases hsome
    · rw [if_neg h] at hsome
      cases hsome
      exact ⟨List.mem_range.mp hi, List.mem_range.mp hj, h, rfl⟩
  · rintro ⟨hi, hj, hnz, hv⟩
    refine ⟨(List.range A.cols).filterMap fun j =>
      if A.entry e.i j = 0 then none else some (Entry.mk e.i j (A.entry e.i j)),
      List.mem_map.mpr ⟨e.i, List.mem_range.mpr hi, rfl⟩, ?_⟩
    refine List.mem_filterMap.mpr ⟨e.j, List.mem_range.mpr hj, ?_⟩
    rw [if_neg hnz, ← hv]

theorem denseTriplets_bounds (A : DenseMatrix) :
    ∀ e ∈ denseTriplets A, e.i < A.rows ∧ e.j < A.cols := fun e he =>
  ⟨((mem_denseTriplets A e).mp he).1, ((mem_denseTriplets A e).mp he).2.1⟩

theorem denseTriplets_pairwise_lt (A : DenseMatrix) :
    (denseTriplets A).Pairwise entryLt := by
  unfold denseTriplets
  rw [List.pairwise_flatten]
  constructor
  · intro l hl
    obtain ⟨i, _, rfl⟩ := List.mem_map.mp hl
    rw [filterMap_if, List.pairwise_map]
    have hsl : ((List.range A.cols).filter fun x => ¬A.entry i x = 0).Pairwise (· < ·) :=
      (List.pairwise_lt_range A.cols).sublist (List.filter_sublist _)
    exact hsl.imp fun h => by unfold entryLt; right; exact ⟨rfl, h⟩
  · rw [List.pairwise_map]
    exact (List.pairwise_lt_range A.rows).imp fun {a b} h => by
      intro x hx y hy
      rw [filterMap_if] at hx hy
      obtain ⟨ja, _, rfl⟩ := List.mem_map.mp hx
      obtain ⟨jb, _, rfl⟩ := List.mem_map.mp hy
      unfold entryLt
      left
      exact h

theorem denseTriplets_posOf_nodup (A : DenseMatrix) :
    ((denseTriplets A).map posOf).Nodup :=
  pairwise_lt_posOf_nodup (denseTriplets A) (denseTriplets_pairwise_lt A)

/-- The value the dense-to-CSR triplets give a position is the dense entry
there. -/
theorem denseTriplets_entryVal (A : DenseMatrix) (i j : Nat)
    (hi : i < A.rows) (hj : j < A.cols) :
    entryVal (denseTriplets A) i j = A.entry i j := by
  by_cases h : A.entry i j = 0
  · rw [entryVal_zero, h]
    intro e he hc
    have := (mem_denseTriplets A e).mp he
    rw [hc.1, hc.2] at this
    exact this.2.2.1 h
  · have hmem : Entry.mk i j (A.entry i j) ∈ denseTriplets A :=
      (mem_denseTriplets A (Entry.mk i j (A.entry i j))).mpr ⟨hi, hj, h, rfl⟩
    have := entryVal_single (denseTriplets A) (denseTriplets_posOf_nodup A)
      (Entry.mk i j (A.entry i j)) hmem
    exact this

theorem fromDense_eq_ok (A : DenseMatrix) :
    fromDense A = Except.ok (fromDense0 A) :=
  fromCOO_eq_ok A.rows A.cols (denseTriplets A) (denseTriplets_bounds A)

theorem fromDense0_wf (A : DenseMatrix) : Wf (fromDense0 A) :=
  cooBuild_wf A.rows A.cols (denseTriplets A) (denseTriplets_bounds A)
    (denseTriplets_posOf_nodup A)

theorem fromDense0_getv (A : DenseMatrix) (i j : Nat) (hi : i < A.rows)
    (hj : j < A.cols) : (fromDense0 A).getv i j = A.entry i j := by
  unfold fromDense0
  rw [cooBuild_getv A.rows A.cols (denseTriplets A)
    (fun e he => (denseTriplets_bounds A e he).1) (denseTriplets_posOf_nodup A) i j hi]
  exact denseTriplets_entryVal A i j hi hj

theorem fromDense0_noZero (A : DenseMatrix) : NoZeroStored (fromDense0 A) :=
  cooBuild_noZero A.rows A.cols (denseTriplets A)
    (fun e he => (denseTriplets_bounds A e he).1)
    (fun e he => by
      have := (mem_denseTriplets A e).mp he
      rw [this.2.2.2]
      exact this.2.2.1)

end CSRMatrix

/-! Claim theorems. -/

/-- C5: `chooseBackend(rows, cols, nnz, threshold)` returns CSR iff
`nnz/(rows*cols) <= threshold` (with the rational-division convention that a
0 denominator yields density 0, exactly the guard's behavior), and a zero
size resolves deterministically with density 0. -/
theorem c5_chooseBackend_spec (rows cols nnz : Nat) (threshold : ℚ) :
    (Matrix.chooseBackend rows cols nnz threshold = Backend.csr ↔
      (nnz : ℚ) / ((rows * cols : Nat) : ℚ) ≤ threshold) ∧
    (rows * cols = 0 →
      Matrix.chooseBackend rows cols nnz threshold =
        if (0 : ℚ) ≤ threshold then Backend.csr else Backend.dense) := by
  have hred : Matrix.chooseBackend rows cols nnz threshold =
      if (if rows * cols > 0 then (nnz : ℚ) / ((rows * cols : Nat) : ℚ) else 0) ≤ threshold
      then Backend.csr else Backend.dense := rfl
  rw [hred]
  by_cases hsz : rows * cols > 0
  · rw [if_pos hsz]
    constructor
    · constructor
      · intro h
        by_contra hc
        rw [if_neg hc] at h
        cases h
      · intro h
        rw [if_pos h]
    · intro h0
      omega
  · have h0 : rows * cols = 0 := by omega
    rw [if_neg hsz]
    constructor
    · rw [h0]
      show (if (0 : ℚ) ≤ threshold then Backend.csr else Backend.dense) = Backend.csr ↔ _
      rw [Nat.cast_zero, div_zero]
      constructor
      · intro h
        by_contra hc
        rw [if_neg hc] at h
        cases h
      · intro h
        rw [if_pos h]
    · intro _
      rfl

unseal Rat.add Rat.mul Rat.sub Rat.inv in
/-- C6 (code bug): `Matrix.zeros(rows, cols)` passes the one-element
`rowPtr = [0]` to the validating CSR constructor, which requires length
`rows+1`; for any `rows ≥ 1` the construction therefore throws
`rowPtr invalide` instead of returning a CSR-backed zero matrix (the backend
`chooseBackend(rows, cols, 0, threshold)` selects). Only `rows = 0`
succeeds. -/
theorem c6_zeros_throws :
    Matrix.zeros 1 1 (1 / 5) = Except.error "rowPtr invalide" ∧
    Matrix.chooseBackend 1 1 0 (1 / 5) = Backend.csr ∧
    (Matrix.zeros 0 3 (1 / 5)).map Matrix.backend = Except.ok Backend.csr := by
  decide

/-- C10: `fromCOO` sorts the caller's `entries` array in place: after the
call the caller's own array holds the stable `(row, col)`-lexicographic sort
of what it passed — an observable mutation (shown to actually reorder a
concrete unsorted input). -/
theorem c10_fromCOO_mutates_input :
    (∀ es : List Entry,
      (CSRMatrix.fromCOOArgAfter es).Perm es ∧
      (CSRMatrix.fromCOOArgAfter es).Pairwise entryLe) ∧
    CSRMatrix.fromCOOArgAfter [⟨1, 0, 2⟩, ⟨0, 0, 1⟩] = [⟨0, 0, 1⟩, ⟨1, 0, 2⟩] ∧
    ([⟨1, 0, 2⟩, ⟨0, 0, 1⟩] : List Entry) ≠ [⟨0, 0, 1⟩, ⟨1, 0, 2⟩] := by
  refine ⟨fun es => ⟨CSRMatrix.cooSort_perm es, CSRMatrix.cooSort_sorted es⟩, by decide, by decide⟩

/-- C7: `A.sub(A)` on any structurally valid CSR matrix is the all-zero
matrix of the same shape with zero stored entries: every matched column
cancels to exact zero and is pruned, so the result's `values` is empty and
every in-bounds read returns 0. -/
theorem c7_sub_self_pruned (A : CSRMatrix) (hA : CSRMatrix.Structural A) :
    ∃ C, A.sub A = Except.ok C ∧ C.rows = A.rows ∧ C.cols = A.cols ∧
      C.values = [] ∧ ∀ i, i < C.rows → ∀ j, j < C.cols → C.getv i j = 0 := by
  refine ⟨CSRMatrix.cooBuild A.rows A.cols [], CSRMatrix.sub_self_eq A, rfl, rfl, ?_, ?_⟩
  · exact (CSRMatrix.cooBuild_spec A.rows A.cols [] (by simp)).1
  · intro i hi j hj
    rw [CSRMatrix.cooBuild_getv A.rows A.cols [] (by simp) (by simp) i j
      (by rwa [CSRMatrix.cooBuild_rows] at hi)]
    rfl

theorem c7_witness :
    CSRMatrix.Structural csrW ∧
    ∃ C, csrW.sub csrW = Except.ok C ∧ C.rows = csrW.rows ∧ C.cols = csrW.cols ∧
      C.values = [] ∧ ∀ i, i < C.rows → ∀ j, j < C.cols → C.getv i j = 0 :=
  ⟨by decide, c7_sub_self_pruned csrW (by decide)⟩

theorem c5_witness :
    (Matrix.chooseBackend 2 2 1 (1 / 5) = Backend.csr ↔
      ((1 : Nat) : ℚ) / ((2 * 2 : Nat) : ℚ) ≤ 1 / 5) ∧
    (2 * 2 = 0 →
      Matrix.chooseBackend 2 2 1 (1 / 5) =
        if (0 : ℚ) ≤ (1 / 5 : ℚ) then Backend.csr else Backend.dense) :=
  c5_chooseBackend_spec 2 2 1 (1 / 5)

/-- C8: converting a dense matrix to CSR and densifying again yields a
matrix equal to the original at every position (and of the same shape). -/
theorem c8_dense_csr_roundtrip (A : DenseMatrix) (hA : A.data.length = A.rows * A.cols) :
    CSRMatrix.fromDense A = Except.ok (CSRMatrix.fromDense0 A) ∧
    (CSRMatrix.fromDense0 A).toDense.rows = A.rows ∧
    (CSRMatrix.fromDense0 A).toDense.cols = A.cols ∧
    ∀ i, i < A.rows → ∀ j, j < A.cols →
      (CSRMatrix.fromDense0 A).toDense.entry i j = A.entry i j := by
  refine ⟨CSRMatrix.fromDense_eq_ok A, rfl, rfl, ?_⟩
  intro i hi j hj
  rw [CSRMatrix.toDense_entry_eq_getv _ (CSRMatrix.fromDense0_wf A) i j hi hj]
  exact CSRMatrix.fromDense0_getv A i j hi hj

theorem c8_witness :
    CSRMatrix.fromDense denseW = Except.ok (CSRMatrix.fromDense0 denseW) ∧
    (CSRMatrix.fromDense0 denseW).toDense.rows = denseW.rows ∧
    (CSRMatrix.fromDense0 denseW).toDense.cols = denseW.cols ∧
    ∀ i, i < denseW.rows → ∀ j, j < denseW.cols →
      (CSRMatrix.fromDense0 denseW).toDense.entry i j = denseW.entry i j :=
  c8_dense_csr_roundtrip denseW (by decide)

unseal Rat.add in
/-- C3 counterexample: `fromCOO` neither sums duplicates nor omits
zero-summing positions. On `[(0,0,1), (0,0,-1)]` (summed value 0) the built
CSR stores both entries (`nnz = 2`) and `get(0,0)` returns 1, not the
claimed sum 0. -/
theorem c3_counterexample :
    CSRMatrix.fromCOO 1 1 [⟨0, 0, 1⟩, ⟨0, 0, -1⟩] = Except.ok c3ex ∧
    CSRMatrix.entryVal [⟨0, 0, 1⟩, ⟨0, 0, -1⟩] 0 0 = 0 ∧
    c3ex.get 0 0 = Except.ok 1 ∧ (1 : ℚ) ≠ 0 ∧
    c3ex.values.length = 2 := by decide

/-- C3 as amended: for entry lists with pairwise-distinct in-bounds
positions, building and reading (directly, or after densifying) returns the
value of the entry at the position (0 if none) — `entryVal` — and every
entry is stored, exact-zero values included (`nnz = `input length`). -/
theorem c3_fromCOO_lookup_amended (rows cols : Nat) (es : List Entry)
    (hb : ∀ e ∈ es, e.i < rows ∧ e.j < cols)
    (hnd : (es.map CSRMatrix.posOf).Nodup) (i j : Nat) (hi : i < rows) (hj : j < cols) :
    ∀ C, CSRMatrix.fromCOO rows cols es = Except.ok C →
      C.get i j = Except.ok (CSRMatrix.entryVal es i j) ∧
      C.toDense.entry i j = CSRMatrix.entryVal es i j ∧
      C.values.length = es.length := by
  intro C hC
  obtain ⟨_, rfl⟩ := CSRMatrix.fromCOO_ok_elim rows cols es C hC
  have hbi : ∀ e ∈ es, e.i < rows := fun e he => (hb e he).1
  have hwf : CSRMatrix.Wf (CSRMatrix.cooBuild rows cols es) :=
    CSRMatrix.cooBuild_wf rows cols es hb hnd
  have hgv : (CSRMatrix.cooBuild rows cols es).getv i j = CSRMatrix.entryVal es i j :=
    CSRMatrix.cooBuild_getv rows cols es hbi hnd i j hi
  refine ⟨?_, ?_, ?_⟩
  · unfold CSRMatrix.get
    rw [if_pos ⟨hi, hj⟩, hgv]
  · rw [CSRMatrix.toDense_entry_eq_getv _ hwf i j hi hj]
    exact hgv
  · rw [(CSRMatrix.cooBuild_spec rows cols es hbi).1, List.length_map,
      CSRMatrix.cooSort_length]

theorem c3_witness :
    c3W.get 0 1 = Except.ok (CSRMatrix.entryVal [⟨0, 0, 5⟩, ⟨0, 1, 0⟩] 0 1) ∧
    c3W.toDense.entry 0 1 = CSRMatrix.entryVal [⟨0, 0, 5⟩, ⟨0, 1, 0⟩] 0 1 ∧
    c3W.values.length = ([⟨0, 0, 5⟩, ⟨0, 1, 0⟩] : List Entry).length :=
  c3_fromCOO_lookup_amended 1 2 [⟨0, 0, 5⟩, ⟨0, 1, 0⟩] (by decide) (by decide) 0 1
    (by decide) (by decide) c3W (by decide)

/-- C4: incompatible arguments make every operation fail synchronously with
the checked error, before any mutation: CSR and dense `add`/`sub`/matrix
`mul`/`matvec` on mismatched shapes, `get`/`set` out of bounds, COO
construction with an out-of-bounds entry; and a failing `set` (for any
reason — the shape checks run first and the rebuild precedes the field
reassignment) leaves the receiver unmodified. -/
theorem c4_error_handling :
    (∀ A B : CSRMatrix, ¬(A.rows = B.rows ∧ A.cols = B.cols) →
      A.add B = Except.error "Dimensions incompatibles pour add" ∧
      A.sub B = Except.error "Dimensions incompatibles pour sub") ∧
    (∀ A B : CSRMatrix, A.cols ≠ B.rows →
      A.mulMat B = Except.error "Dimensions incompatibles pour mul") ∧
    (∀ (A : CSRMatrix) (x : List ℚ), x.length ≠ A.cols →
      A.matvec x = Except.error "Taille du vecteur incompatible") ∧
    (∀ (A : CSRMatrix) (i j : Nat), ¬(i < A.rows ∧ j < A.cols) →
      A.get i j = Except.error "Indice hors limites" ∧
      ∀ v, A.set i j v = Except.error "Indice hors limites") ∧
    (∀ (A : CSRMatrix) (i j : Nat) (v : ℚ) (msg : String),
      A.set i j v = Except.error msg → A.setRun i j v = A) ∧
    (∀ (rows cols : Nat) (es : List Entry) (e : Entry), e ∈ es →
      ¬(e.i < rows ∧ e.j < cols) →
      CSRMatrix.fromCOO rows cols es = Except.error "Indice hors limites") ∧
    (∀ A B : DenseMatrix, ¬(A.rows = B.rows ∧ A.cols = B.cols) →
      A.add B = Except.error "Dimensions incompatibles pour add" ∧
      A.sub B = Except.error "Dimensions incompatibles pour sub") ∧
    (∀ A B : DenseMatrix, A.cols ≠ B.rows →
      A.mulMat B = Except.error "Dimensions incompatibles pour mul") ∧
    (∀ (A : DenseMatrix) (x : List ℚ), x.length ≠ A.cols →
      A.matvec x = Except.error "Taille du vecteur incompatible") ∧
    (∀ (A : DenseMatrix) (i j : Nat), ¬(i < A.rows ∧ j < A.cols) →
      A.get i j = Except.error "Indice hors limites" ∧
      A.set i j 7 = Except.error "Indice hors limites") := by
  refine ⟨?_, ?_, ?_, ?_, ?_, ?_, ?_, ?_, ?_, ?_⟩
  · intro A B h
    exact ⟨by unfold CSRMatrix.add; rw [if_neg h],
      by unfold CSRMatrix.sub; rw [if_neg h]⟩
  · intro A B h
    unfold CSRMatrix.mulMat
    rw [if_neg h]
  · intro A x h
    unfold CSRMatrix.matvec
    rw [if_neg h]
  · intro A i j h
    refine ⟨by unfold CSRMatrix.get; rw [if_neg h], fun v => ?_⟩
    unfold CSRMatrix.set
    rw [if_neg h]
  · intro A i j v msg h
    unfold CSRMatrix.setRun
    rw [h]
  · intro rows cols es e he h
    exact CSRMatrix.fromCOO_eq_error rows cols es e he h
  · intro A B h
    exact ⟨by unfold DenseMatrix.add; rw [if_neg h],
      by unfold DenseMatrix.sub; rw [if_neg h]⟩
  · intro A B h
    unfold DenseMatrix.mulMat
    rw [if_neg h]
  · intro A x h
    unfold DenseMatrix.matvec
    rw [if_neg h]
  · intro A i j h
    exact ⟨by unfold DenseMatrix.get; rw [if_neg h],
      by unfold DenseMatrix.set; rw [if_neg h]⟩

theorem c4_witness :
    (csrW.add ⟨3, 3, [], [], [0, 0, 0, 0]⟩ =
      Except.error "Dimensions incompatibles pour add" ∧
     csrW.sub ⟨3, 3, [], [], [0, 0, 0, 0]⟩ =
      Except.error "Dimensions incompatibles pour sub") ∧
    csrW.get 5 0 = Except.error "Indice hors limites" ∧
    csrW.set 5 0 7 = Except.error "Indice hors limites" ∧
    csrW.setRun 5 0 7 = csrW ∧
    CSRMatrix.fromCOO 2 2 [⟨9, 0, 1⟩] = Except.error "Indice hors limites" ∧
    denseW.matvec [1, 2, 3] = Except.error "Taille du vecteur incompatible" := by
  have h := c4_error_handling
  have hget := (h.2.2.2.1 csrW 5 0 (by decide)).1
  have hset := (h.2.2.2.1 csrW 5 0 (by decide)).2 7
  refine ⟨h.1 csrW ⟨3, 3, [], [], [0, 0, 0, 0]⟩ (by decide), hget, hset,
    h.2.2.2.2.1 csrW 5 0 7 "Indice hors limites" hset,
    h.2.2.2.2.2.1 2 2 [⟨9, 0, 1⟩] ⟨9, 0, 1⟩ (by decide) (by decide),
    h.2.2.2.2.2.2.2.2.1 denseW [1, 2, 3] (by decide)⟩

namespace DenseMatrix

theorem ofFn_entry (rows cols : Nat) (f : Nat → Nat → ℚ) (i j : Nat)
    (hi : i < rows) (hj : j < cols) : (ofFn rows cols f).entry i j = f i j := by
  unfold ofFn entry
  show ((List.range (rows * cols)).map fun idx => f (idx / cols) (idx % cols)).getD
    (i * cols + j) 0 = f i j
  rw [Abacus.mapRange_getD, if_pos (CSRMatrix.pos_encode_lt rows cols i j hi hj)]
  have hc : 0 < cols := by omega
  have hdiv : (i * cols + j) / cols = i := by
    rw [Nat.mul_comm, Nat.mul_add_div hc, Nat.div_eq_of_lt hj]
    omega
  have hmod : (i * cols + j) % cols = j := by
    rw [Nat.mul_comm, Nat.mul_add_mod, Nat.mod_eq_of_lt hj]
  rw [hdiv, hmod]

end DenseMatrix

namespace CSRMatrix

/-- Transposed entry lists keep distinct positions. -/
theorem swap_posOf_nodup (es : List Entry) (h : (es.map posOf).Nodup) :
    ((es.map fun e => Entry.mk e.j e.i e.v).map posOf).Nodup := by
  show ((es.map fun e => Entry.mk e.j e.i e.v).map posOf).Pairwise (· ≠ ·)
  rw [List.pairwise_map, List.pairwise_map]
  have hp : (es.map posOf).Pairwise (· ≠ ·) := h
  rw [List.pairwise_map] at hp
  refine hp.imp ?_
  intro a b hab heq
  apply hab
  unfold posOf at heq ⊢
  have h1 := congrArg Prod.fst heq
  have h2 := congrArg Prod.snd heq
  simp at h1 h2
  rw [Prod.ext_iff]
  exact ⟨h2, h1⟩

theorem entryVal_map_swap (es : List Entry) (i j : Nat) :
    entryVal (es.map fun e => Entry.mk e.j e.i e.v) j i = entryVal es i j := by
  unfold entryVal
  rw [List.filter_map, List.map_map]
  have hfc : List.filter ((fun f => decide (f.i = j ∧ f.j = i)) ∘
      fun e => Entry.mk e.j e.i e.v) es =
      List.filter (fun e => decide (e.i = i ∧ e.j = j)) es := by
    apply List.filter_congr
    intro e _
    show decide (e.j = j ∧ e.i = i) = decide (e.i = i ∧ e.j = j)
    simp [And.comm]
  rw [hfc]
  rfl

theorem transpose_eq_ok (A : CSRMatrix) (hw : Wf A) :
    A.transpose = Except.ok
      (cooBuild A.cols A.rows (A.entriesOf.map fun e => Entry.mk e.j e.i e.v)) := by
  unfold transpose
  apply fromCOO_eq_ok
  intro e' he'
  obtain ⟨e, he, rfl⟩ := List.mem_map.mp he'
  have hb := entriesOf_bounds A hw.2.2 e he
  exact ⟨hb.2, hb.1⟩

theorem transpose_build_wf (A : CSRMatrix) (hw : Wf A) :
    Wf (cooBuild A.cols A.rows (A.entriesOf.map fun e => Entry.mk e.j e.i e.v)) := by
  apply cooBuild_wf
  · intro e' he'
    obtain ⟨e, he, rfl⟩ := List.mem_map.mp he'
    have hb := entriesOf_bounds A hw.2.2 e he
    exact ⟨hb.2, hb.1⟩
  · apply swap_posOf_nodup
    exact pairwise_lt_posOf_nodup A.entriesOf (entriesOf_pairwise_lt A hw.2.1)

/-- Transposing flips element lookup. -/
theorem transpose_build_getv (A : CSRMatrix) (hw : Wf A) (i j : Nat)
    (hi : i < A.rows) (hj : j < A.cols) :
    (cooBuild A.cols A.rows (A.entriesOf.map fun e => Entry.mk e.j e.i e.v)).getv j i =
      A.getv i j := by
  rw [cooBuild_getv A.cols A.rows _
    (fun e' he' => by
      obtain ⟨e, he, rfl⟩ := List.mem_map.mp he'
      exact (entriesOf_bounds A hw.2.2 e he).2)
    (swap_posOf_nodup A.entriesOf
      (pairwise_lt_posOf_nodup A.entriesOf (entriesOf_pairwise_lt A hw.2.1))) j i hj]
  rw [entryVal_map_swap]
  exact (getv_eq_entryVal A hw.2.1 i j hi).symm

end CSRMatrix

/-- C9: transposing twice is the identity at every position, for dense and
CSR matrices alike, in every shape (square, rectangular, degenerate). -/
theorem c9_transpose_involution :
    (∀ A : DenseMatrix,
      A.transpose.transpose.rows = A.rows ∧ A.transpose.transpose.cols = A.cols ∧
      ∀ i, i < A.rows → ∀ j, j < A.cols →
        A.transpose.transpose.entry i j = A.entry i j) ∧
    (∀ A : CSRMatrix, CSRMatrix.Wf A →
      ∃ T T2, A.transpose = Except.ok T ∧ T.transpose = Except.ok T2 ∧
        T2.rows = A.rows ∧ T2.cols = A.cols ∧
        ∀ i, i < A.rows → ∀ j, j < A.cols → T2.getv i j = A.getv i j) := by
  constructor
  · intro A
    refine ⟨rfl, rfl, ?_⟩
    intro i hi j hj
    show (DenseMatrix.ofFn A.rows A.cols fun a b => A.transpose.entry b a).entry i j = _
    rw [DenseMatrix.ofFn_entry A.rows A.cols _ i j hi hj]
    show (DenseMatrix.ofFn A.cols A.rows fun a b => A.entry b a).entry j i = _
    rw [DenseMatrix.ofFn_entry A.cols A.rows _ j i hj hi]
  · intro A hw
    have h1 := CSRMatrix.transpose_eq_ok A hw
    have hTwf := CSRMatrix.transpose_build_wf A hw
    have h2 := CSRMatrix.transpose_eq_ok _ hTwf
    refine ⟨_, _, h1, h2, CSRMatrix.cooBuild_rows _ _ _, CSRMatrix.cooBuild_cols _ _ _, ?_⟩
    intro i hi j hj
    rw [CSRMatrix.transpose_build_getv _ hTwf j i
      (by rw [CSRMatrix.cooBuild_rows]; exact hj) (by rw [CSRMatrix.cooBuild_cols]; exact hi)]
    exact CSRMatrix.transpose_build_getv A hw i j hi hj

theorem c9_witness :
    (denseW.transpose.transpose.rows = denseW.rows ∧
     denseW.transpose.transpose.cols = denseW.cols ∧
     ∀ i, i < denseW.rows → ∀ j, j < denseW.cols →
       denseW.transpose.transpose.entry i j = denseW.entry i j) ∧
    ∃ T T2, csrW.transpose = Except.ok T ∧ T.transpose = Except.ok T2 ∧
      T2.rows = csrW.rows ∧ T2.cols = csrW.cols ∧
      ∀ i, i < csrW.rows → ∀ j, j < csrW.cols → T2.getv i j = csrW.getv i j :=
  ⟨c9_transpose_involution.1 denseW, c9_transpose_involution.2 csrW (by decide)⟩

namespace CSRMatrix

theorem mergePairs_nil_right (fB : ℚ → ℚ) (fAB : ℚ → ℚ → ℚ) (as : List (Nat × ℚ)) :
    mergePairs fB fAB as [] = as := by
  cases as <;> simp [mergePairs]

theorem mergePairs_nil_left (fB : ℚ → ℚ) (fAB : ℚ → ℚ → ℚ) (bs : List (Nat × ℚ)) :
    mergePairs fB fAB [] bs = bs.map fun p => (p.1, fB p.2) := by
  cases bs <;> simp [mergePairs]

theorem mergePairs_cons_cons (fB : ℚ → ℚ) (fAB : ℚ → ℚ → ℚ) (ja : Nat) (va : ℚ)
    (as : List (Nat × ℚ)) (jb : Nat) (vb : ℚ) (bs : List (Nat × ℚ)) :
    mergePairs fB fAB ((ja, va) :: as) ((jb, vb) :: bs) =
      if ja < jb then (ja, va) :: mergePairs fB fAB as ((jb, vb) :: bs)
      else if jb < ja then (jb, fB vb) :: mergePairs fB fAB ((ja, va) :: as) bs
      else (if fAB va vb = 0 then [] else [(ja, fAB va vb)]) ++ mergePairs fB fAB as bs := by
  simp [mergePairs]

/-- Every key of a merged row comes from one of the two inputs. -/
theorem mergePairs_keys_subset (fB : ℚ → ℚ) (fAB : ℚ → ℚ → ℚ) :
    ∀ as bs, ∀ p ∈ mergePairs fB fAB as bs,
      p.1 ∈ as.map Prod.fst ∨ p.1 ∈ bs.map Prod.fst := by
  intro as bs
  induction as, bs using mergePairs.induct fB fAB with
  | case1 as =>
    rw [mergePairs_nil_right]
    intro p hp
    exact Or.inl (List.mem_map.mpr ⟨p, hp, rfl⟩)
  | case2 bs h =>
    rw [mergePairs_nil_left]
    intro p hp
    obtain ⟨q, hq, rfl⟩ := List.mem_map.mp hp
    exact Or.inr (List.mem_map.mpr ⟨q, hq, rfl⟩)
  | case3 ja va as jb vb bs hlt ih =>
    rw [mergePairs_cons_cons, if_pos hlt]
    intro p hp
    rcases List.mem_cons.mp hp with rfl | hp2
    · exact Or.inl (by simp)
    · rcases ih p hp2 with h | h
      · exact Or.inl (by simp [h])
      · exact Or.inr h
  | case4 ja va as jb vb bs h1 h2 ih =>
    rw [mergePairs_cons_cons, if_neg h1, if_pos h2]
    intro p hp
    rcases List.mem_cons.mp hp with rfl | hp2
    · exact Or.inr (by simp)
    · rcases ih p hp2 with h | h
      · exact Or.inl h
      · exact Or.inr (by simp [h])
  | case5 ja va as jb vb bs h1 h2 ih =>
    rw [mergePairs_cons_cons, if_neg h1, if_neg h2]
    intro p hp
    rcases List.mem_append.mp hp with hp1 | hp2
    · rcases List.mem_ite_nil_left.mp hp1 with ⟨_, hm⟩
      have : p = (ja, fAB va vb) := by simpa using hm
      subst this
      exact Or.inl (by simp)
    · rcases ih p hp2 with h | h
      · exact Or.inl (by simp [h])
      · exact Or.inr (by simp [h])

theorem pairwise_fst_cons {j : Nat} {v : ℚ} {l : List (Nat × ℚ)}
    (h : (((j, v) :: l).map Prod.fst).Pairwise (· < ·)) :
    (∀ q ∈ l.map Prod.fst, j < q) ∧ (l.map Prod.fst).Pairwise (· < ·) :=
  ⟨(List.pairwise_cons.mp h).1, (List.pairwise_cons.mp h).2⟩

theorem mem_fst_cons {x j : Nat} {v : ℚ} {l : List (Nat × ℚ)}
    (h : x ∈ ((j, v) :: l).map Prod.fst) : x = j ∨ x ∈ l.map Prod.fst :=
  List.mem_cons.mp h

/-- The sorted two-pointer merge emits strictly increasing columns. -/
theorem mergePairs_keys_sorted (fB : ℚ → ℚ) (fAB : ℚ → ℚ → ℚ) :
    ∀ as bs, ((as.map Prod.fst).Pairwise (· < ·)) → ((bs.map Prod.fst).Pairwise (· < ·)) →
      ((mergePairs fB fAB as bs).map Prod.fst).Pairwise (· < ·) := by
  intro as bs
  induction as, bs using mergePairs.induct fB fAB with
  | case1 as =>
    intro ha _
    rw [mergePairs_nil_right]
    exact ha
  | case2 bs h =>
    intro _ hb
    rw [mergePairs_nil_left, List.map_map]
    rw [List.pairwise_map] at hb ⊢
    exact hb
  | case3 ja va as jb vb bs hlt ih =>
    intro ha hb
    obtain ⟨hahd, hat⟩ := pairwise_fst_cons ha
    rw [mergePairs_cons_cons, if_pos hlt, List.map_cons, List.pairwise_cons]
    refine ⟨?_, ih hat hb⟩
    intro q hq
    obtain ⟨p, hp, rfl⟩ := List.mem_map.mp hq
    rcases mergePairs_keys_subset fB fAB as ((jb, vb) :: bs) p hp with h | h
    · exact hahd p.1 h
    · rcases mem_fst_cons h with rfl | hmem
      · exact hlt
      · have := (pairwise_fst_cons hb).1 p.1 hmem
        omega
  | case4 ja va as jb vb bs h1 h2 ih =>
    intro ha hb
    obtain ⟨hbhd, hbt⟩ := pairwise_fst_cons hb
    rw [mergePairs_cons_cons, if_neg h1, if_pos h2, List.map_cons, List.pairwise_cons]
    refine ⟨?_, ih ha hbt⟩
    intro q hq
    obtain ⟨p, hp, rfl⟩ := List.mem_map.mp hq
    rcases mergePairs_keys_subset fB fAB ((ja, va) :: as) bs p hp with h | h
    · rcases mem_fst_cons h with rfl | hmem
      · exact h2
      · have := (pairwise_fst_cons ha).1 p.1 hmem
        omega
    · exact hbhd p.1 h
  | case5 ja va as jb vb bs h1 h2 ih =>
    intro ha hb
    obtain ⟨hahd, hat⟩ := pairwise_fst_cons ha
    obtain ⟨hbhd, hbt⟩ := pairwise_fst_cons hb
    rw [mergePairs_cons_cons, if_neg h1, if_neg h2]
    have hrec := ih hat hbt
    by_cases hz : fAB va vb = 0
    · rw [if_pos hz]
      simpa using hrec
    · rw [if_neg hz]
      rw [List.singleton_append, List.map_cons, List.pairwise_cons]
      refine ⟨?_, hrec⟩
      intro q hq
      obtain ⟨p, hp, rfl⟩ := List.mem_map.mp hq
      rcases mergePairs_keys_subset fB fAB as bs p hp with h | h
      · exact hahd p.1 h
      · have := hbhd p.1 h
        omega

/-- The merge only emits non-zero values when the inputs are non-zero and
`fB` preserves non-zeroness (identity and negation do). -/
theorem mergePairs_values_nonzero (fB : ℚ → ℚ) (fAB : ℚ → ℚ → ℚ)
    (hfB : ∀ v : ℚ, v ≠ 0 → fB v ≠ 0) :
    ∀ as bs, (∀ p ∈ as, p.2 ≠ (0 : ℚ)) → (∀ p ∈ bs, p.2 ≠ (0 : ℚ)) →
      ∀ p ∈ mergePairs fB fAB as bs, p.2 ≠ (0 : ℚ) := by
  intro as bs
  induction as, bs using mergePairs.induct fB fAB with
  | case1 as =>
    intro ha _
    rw [mergePairs_nil_right]
    exact ha
  | case2 bs h =>
    intro _ hb
    rw [mergePairs_nil_left]
    intro p hp
    obtain ⟨q, hq, rfl⟩ := List.mem_map.mp hp
    exact hfB q.2 (hb q hq)
  | case3 ja va as jb vb bs hlt ih =>
    intro ha hb
    rw [mergePairs_cons_cons, if_pos hlt]
    intro p hp
    rcases List.mem_cons.mp hp with rfl | hp2
    · exact ha (ja, va) (by simp)
    · exact ih (fun q hq => ha q (by simp [hq])) hb p hp2
  | case4 ja va as jb vb bs h1 h2 ih =>
    intro ha hb
    rw [mergePairs_cons_cons, if_neg h1, if_pos h2]
    intro p hp
    rcases List.mem_cons.mp hp with rfl | hp2
    · exact hfB vb (hb (jb, vb) (by simp))
    · exact ih ha (fun q hq => hb q (by simp [hq])) p hp2
  | case5 ja va as jb vb bs h1 h2 ih =>
    intro ha hb
    rw [mergePairs_cons_cons, if_neg h1, if_neg h2]
    intro p hp
    rcases List.mem_append.mp hp with hp1 | hp2
    · obtain ⟨hz, hm⟩ := List.mem_ite_nil_left.mp hp1
      have : p = (ja, fAB va vb) := by simpa using hm
      subst this
      exact hz
    · exact ih (fun q hq => ha q (by simp [hq])) (fun q hq => hb q (by simp [hq])) p hp2

/-- Entries collected per row (row index attached, rows ascending) have
strictly increasing lexicographic positions when each row is strictly
column-sorted. -/
theorem rowsFlatten_pairwise_lt (n : Nat) (L : Nat → List (Nat × ℚ))
    (h : ∀ i < n, ((L i).map Prod.fst).Pairwise (· < ·)) :
    (((List.range n).map fun i => (L i).map fun p => Entry.mk i p.1 p.2).flatten).Pairwise
      entryLt := by
  rw [List.pairwise_flatten]
  constructor
  · intro l hl
    obtain ⟨i, hi, rfl⟩ := List.mem_map.mp hl
    rw [List.pairwise_map]
    have := h i (List.mem_range.mp hi)
    rw [List.pairwise_map] at this
    exact this.imp fun hpq => by unfold entryLt; right; exact ⟨rfl, hpq⟩
  · rw [List.pairwise_map]
    exact (List.pairwise_lt_range n).imp fun {a b} hab => by
      intro x hx y hy
      obtain ⟨p, _, rfl⟩ := List.mem_map.mp hx
      obtain ⟨q, _, rfl⟩ := List.mem_map.mp hy
      unfold entryLt
      left
      exact hab

theorem rowsFlatten_mem (n : Nat) (L : Nat → List (Nat × ℚ)) (e : Entry)
    (he : e ∈ ((List.range n).map fun i => (L i).map fun p => Entry.mk i p.1 p.2).flatten) :
    e.i < n ∧ (e.j, e.v) ∈ L e.i := by
  obtain ⟨l, hl, hel⟩ := List.mem_flatten.mp he
  obtain ⟨i, hi, rfl⟩ := List.mem_map.mp hl
  obtain ⟨p, hp, rfl⟩ := List.mem_map.mp hel
  exact ⟨List.mem_range.mp hi, hp⟩

/-- The merged entry list of `add`/`sub` over well-formed operands: in
bounds, distinct positions, and (when `fB` preserves non-zeroness) no exact
zeros. -/
theorem mergedEntries_facts (fB : ℚ → ℚ) (fAB : ℚ → ℚ → ℚ)
    (hfB : ∀ v : ℚ, v ≠ 0 → fB v ≠ 0) (A B : CSRMatrix)
    (hwA : Wf A) (hwB : Wf B) (hzA : NoZeroStored A) (hzB : NoZeroStored B)
    (hr : A.rows = B.rows) (hc : A.cols = B.cols) :
    (∀ e ∈ mergedEntries fB fAB A B, e.i < A.rows ∧ e.j < A.cols) ∧
    ((mergedEntries fB fAB A B).map posOf).Nodup ∧
    (∀ e ∈ mergedEntries fB fAB A B, e.v ≠ 0) := by
  have hsorted : ∀ i < A.rows,
      ((mergePairs fB fAB (A.rowPairs i) (B.rowPairs i)).map Prod.fst).Pairwise (· < ·) := by
    intro i hi
    exact mergePairs_keys_sorted fB fAB _ _ (hwA.2.1 i hi) (hwB.2.1 i (hr ▸ hi))
  refine ⟨?_, ?_, ?_⟩
  · intro e he
    obtain ⟨hi, hp⟩ := rowsFlatten_mem A.rows _ e he
    refine ⟨hi, ?_⟩
    rcases mergePairs_keys_subset fB fAB _ _ (e.j, e.v) hp with h | h
    · obtain ⟨q, hq, hqe⟩ := List.mem_map.mp h
      rw [show e.j = q.1 from hqe.symm]
      exact hwA.2.2 e.i hi q hq
    · obtain ⟨q, hq, hqe⟩ := List.mem_map.mp h
      rw [show e.j = q.1 from hqe.symm]
      exact hc ▸ hwB.2.2 e.i (hr ▸ hi) q hq
  · exact pairwise_lt_posOf_nodup _ (rowsFlatten_pairwise_lt A.rows _ hsorted)
  · intro e he
    obtain ⟨hi, hp⟩ := rowsFlatten_mem A.rows _ e he
    exact mergePairs_values_nonzero fB fAB hfB _ _
      (fun q hq => hzA q.2 (rowPairs_mem_values A e.i q hq))
      (fun q hq => hzB q.2 (rowPairs_mem_values B e.i q hq)) (e.j, e.v) hp

/-- `add` on well-formed zero-free CSR operands of matching shape succeeds
and yields a well-formed zero-free CSR matrix. -/
theorem add_ok_wf (A B : CSRMatrix) (hwA : Wf A) (hwB : Wf B)
    (hzA : NoZeroStored A) (hzB : NoZeroStored B)
    (hr : A.rows = B.rows) (hc : A.cols = B.cols) :
    A.add B = Except.ok (cooBuild A.rows A.cols (mergedEntries id (· + ·) A B)) ∧
    Wf (cooBuild A.rows A.cols (mergedEntries id (· + ·) A B)) ∧
    NoZeroStored (cooBuild A.rows A.cols (mergedEntries id (· + ·) A B)) := by
  obtain ⟨hb, hnd, hnz⟩ := mergedEntries_facts id (· + ·) (fun v h => h) A B
    hwA hwB hzA hzB hr hc
  refine ⟨?_, cooBuild_wf _ _ _ hb hnd, cooBuild_noZero _ _ _ (fun e he => (hb e he).1) hnz⟩
  unfold add
  rw [if_pos ⟨hr, hc⟩]
  exact fromCOO_eq_ok A.rows A.cols _ hb

/-- `sub` on well-formed zero-free CSR operands of matching shape succeeds
and yields a well-formed zero-free CSR matrix. -/
theorem sub_ok_wf (A B : CSRMatrix) (hwA : Wf A) (hwB : Wf B)
    (hzA : NoZeroStored A) (hzB : NoZeroStored B)
    (hr : A.rows = B.rows) (hc : A.cols = B.cols) :
    A.sub B = Except.ok (cooBuild A.rows A.cols (mergedEntries (fun v => -v) (· - ·) A B)) ∧
    Wf (cooBuild A.rows A.cols (mergedEntries (fun v => -v) (· - ·) A B)) ∧
    NoZeroStored (cooBuild A.rows A.cols (mergedEntries (fun v => -v) (· - ·) A B)) := by
  obtain ⟨hb, hnd, hnz⟩ := mergedEntries_facts (fun v => -v) (· - ·)
    (fun v h => by simpa using h) A B hwA hwB hzA hzB hr hc
  refine ⟨?_, cooBuild_wf _ _ _ hb hnd, cooBuild_noZero _ _ _ (fun e he => (hb e he).1) hnz⟩
  unfold sub
  rw [if_pos ⟨hr, hc⟩]
  exact fromCOO_eq_ok A.rows A.cols _ hb

/-! Gustavson accumulator lemmas. -/

theorem upsert_keys (l : List (Nat × ℚ)) (j : Nat) (p : ℚ) :
    (upsert l j p).map Prod.fst =
      if j ∈ l.map Prod.fst then l.map Prod.fst else l.map Prod.fst ++ [j] := by
  induction l with
  | nil => simp [upsert]
  | cons q rest ih =>
    obtain ⟨c, v⟩ := q
    show ((if c = j then (c, v + p) :: rest else (c, v) :: upsert rest j p).map Prod.fst) = _
    by_cases h : c = j
    · subst h
      rw [if_pos rfl, if_pos (by simp)]
      simp
    · rw [if_neg h, List.map_cons, ih]
      by_cases h2 : j ∈ rest.map Prod.fst
      · rw [if_pos h2, if_pos (by simp [h2])]
        rfl
      · rw [if_neg h2, if_neg (by simp [h2]; omega)]
        rfl

theorem upsert_keys_nodup (l : List (Nat × ℚ)) (j : Nat) (p : ℚ)
    (h : (l.map Prod.fst).Nodup) : ((upsert l j p).map Prod.fst).Nodup := by
  rw [upsert_keys]
  by_cases hm : j ∈ l.map Prod.fst
  · rw [if_pos hm]; exact h
  · rw [if_neg hm]
    rw [List.nodup_append]
    exact ⟨h, List.nodup_singleton j, by
      intro x hx hx2
      have : x = j := by simpa using hx2
      subst this
      exact hm hx⟩

theorem upsert_rowVal (l : List (Nat × ℚ)) (j : Nat) (p : ℚ) (q : Nat) :
    rowVal (upsert l j p) q = rowVal l q + if q = j then p else 0 := by
  induction l with
  | nil =>
    show rowVal [(j, p)] q = rowVal [] q + _
    unfold rowVal
    by_cases h : q = j
    · subst h
      rw [if_pos rfl, List.filter_cons, if_pos (dpos rfl)]
      simp
    · rw [if_neg h, List.filter_cons, if_neg (dneg (fun hc => h hc.symm))]
      simp
  | cons hd rest ih =>
    obtain ⟨c, v⟩ := hd
    show rowVal (if c = j then (c, v + p) :: rest else (c, v) :: upsert rest j p) q = _
    by_cases h : c = j
    · subst h
      rw [if_pos rfl]
      unfold rowVal
      by_cases hq : c = q
      · subst hq
        rw [List.filter_cons, if_pos (dpos rfl), List.filter_cons, if_pos (dpos rfl)]
        simp only [List.map_cons, List.sum_cons]
        simp only [if_true, eq_self_iff_true]
        ring
      · rw [List.filter_cons, if_neg (dneg hq), List.filter_cons, if_neg (dneg hq),
          if_neg (fun hc => hq (hc.symm))]
        simp
    · rw [if_neg h]
      unfold rowVal
      by_cases hq : c = q
      · subst hq
        rw [List.filter_cons, if_pos (dpos rfl), List.filter_cons, if_pos (dpos rfl)]
        simp only [List.map_cons, List.sum_cons]
        have := ih
        unfold rowVal at this
        rw [this]
        ring
      · rw [List.filter_cons, if_neg (dneg hq), List.filter_cons, if_neg (dneg hq)]
        have := ih
        unfold rowVal at this
        rw [this]

theorem upsert_keys_mem (l : List (Nat × ℚ)) (j : Nat) (p : ℚ) (q : Nat)
    (h : q ∈ (upsert l j p).map Prod.fst) : q ∈ l.map Prod.fst ∨ q = j := by
  rw [upsert_keys] at h
  by_cases hm : j ∈ l.map Prod.fst
  · rw [if_pos hm] at h
    exact Or.inl h
  · rw [if_neg hm] at h
    rcases List.mem_append.mp h with h1 | h1
    · exact Or.inl h1
    · exact Or.inr (by simpa using h1)

/-- The inner `for (bk ...)` loop of pass 2, on the accumulator: adds the
row-k products into the column-keyed totals. -/
theorem accInner_rowVal (a : ℚ) (bs : List (Nat × ℚ)) (q : Nat) :
    ∀ acc, rowVal (bs.foldl (fun acc2 jb =>
        if a * jb.2 = 0 then acc2 else upsert acc2 jb.1 (a * jb.2)) acc) q =
      rowVal acc q + ((bs.filter fun jb => jb.1 = q).map fun jb => a * jb.2).sum := by
  induction bs with
  | nil => intro acc; simp
  | cons jb rest ih =>
    intro acc
    show rowVal (rest.foldl _ (if a * jb.2 = 0 then acc else upsert acc jb.1 (a * jb.2))) q = _
    rw [ih]
    by_cases hz : a * jb.2 = 0
    · rw [if_pos hz, List.filter_cons]
      by_cases hm : jb.1 = q
      · rw [if_pos (dpos hm)]
        simp only [List.map_cons, List.sum_cons, hz]
        ring
      · rw [if_neg (dneg hm)]
    · rw [if_neg hz, upsert_rowVal, List.filter_cons]
      by_cases hm : jb.1 = q
      · rw [if_pos (dpos hm), if_pos hm.symm]
        simp only [List.map_cons, List.sum_cons]
        ring
      · rw [if_neg (dneg hm), if_neg (fun hc => hm hc.symm)]
        ring

theorem accInner_keys_nodup (a : ℚ) (bs : List (Nat × ℚ)) :
    ∀ acc, ((acc : List (Nat × ℚ)).map Prod.fst).Nodup →
      ((bs.foldl (fun acc2 jb =>
        if a * jb.2 = 0 then acc2 else upsert acc2 jb.1 (a * jb.2)) acc).map Prod.fst).Nodup := by
  induction bs with
  | nil => intro acc h; exact h
  | cons jb rest ih =>
    intro acc h
    show ((rest.foldl _ (if a * jb.2 = 0 then acc else upsert acc jb.1 (a * jb.2))).map
      Prod.fst).Nodup
    apply ih
    by_cases hz : a * jb.2 = 0
    · rw [if_pos hz]; exact h
    · rw [if_neg hz]; exact upsert_keys_nodup acc jb.1 _ h

theorem accInner_keys_mem (a : ℚ) (bs : List (Nat × ℚ)) :
    ∀ acc q, q ∈ ((bs.foldl (fun acc2 jb =>
        if a * jb.2 = 0 then acc2 else upsert acc2 jb.1 (a * jb.2)) acc).map Prod.fst) →
      q ∈ acc.map Prod.fst ∨ q ∈ bs.map Prod.fst := by
  induction bs with
  | nil => intro acc q h; exact Or.inl h
  | cons jb rest ih =>
    intro acc q h
    have h2 := ih _ q h
    rcases h2 with h2 | h2
    · have h2a : q ∈ (List.map Prod.fst
          (if a * jb.2 = 0 then acc else upsert acc jb.1 (a * jb.2))) := h2
      by_cases hz : a * jb.2 = 0
      · rw [if_pos hz] at h2a
        exact Or.inl h2a
      · rw [if_neg hz] at h2a
        rcases upsert_keys_mem acc jb.1 _ q h2a with h3 | h3
        · exact Or.inl h3
        · exact Or.inr (by simp [h3])
    · exact Or.inr (by simp [h2])

/-- The accumulated row value at column `q`: the dot of A's stored row with
the `q`-column entries of the visited B rows. -/
theorem accRow_rowVal (A B : CSRMatrix) (i q : Nat) :
    rowVal (accRow A B i) q =
      ((A.rowPairs i).map fun kv => kv.2 * rowVal (B.rowPairs kv.1) q).sum := by
  unfold accRow
  have hgen : ∀ (as : List (Nat × ℚ)) (acc : List (Nat × ℚ)),
      rowVal (as.foldl (fun acc kv =>
        if kv.2 = 0 then acc
        else (B.rowPairs kv.1).foldl (fun acc2 jb =>
          if kv.2 * jb.2 = 0 then acc2 else upsert acc2 jb.1 (kv.2 * jb.2)) acc) acc) q =
      rowVal acc q + (as.map fun kv => kv.2 * rowVal (B.rowPairs kv.1) q).sum := by
    intro as
    induction as with
    | nil => intro acc; simp
    | cons kv rest ih =>
      intro acc
      rw [List.foldl_cons, ih, List.map_cons, List.sum_cons]
      by_cases hz : kv.2 = 0
      · rw [if_pos hz, hz]
        ring
      · rw [if_neg hz, accInner_rowVal]
        have : ((List.filter (fun jb => jb.1 = q) (B.rowPairs kv.1)).map
            fun jb => kv.2 * jb.2).sum = kv.2 * rowVal (B.rowPairs kv.1) q := by
          unfold rowVal
          rw [← List.sum_map_mul_left]
        rw [this]
        ring
  rw [hgen, rowVal]
  simp

theorem accRow_keys_nodup (A B : CSRMatrix) (i : Nat) :
    ((accRow A B i).map Prod.fst).Nodup := by
  unfold accRow
  have hgen : ∀ (as : List (Nat × ℚ)) (acc : List (Nat × ℚ)),
      ((acc.map Prod.fst).Nodup) →
      (((as.foldl (fun acc kv =>
        if kv.2 = 0 then acc
        else (B.rowPairs kv.1).foldl (fun acc2 jb =>
          if kv.2 * jb.2 = 0 then acc2 else upsert acc2 jb.1 (kv.2 * jb.2)) acc) acc).map
            Prod.fst).Nodup) := by
    intro as
    induction as with
    | nil => intro acc h; exact h
    | cons kv rest ih =>
      intro acc h
      rw [List.foldl_cons]
      apply ih
      by_cases hz : kv.2 = 0
      · rw [if_pos hz]; exact h
      · rw [if_neg hz]
        exact accInner_keys_nodup kv.2 _ acc h
  exact hgen _ [] (by simp)

theorem accRow_keys_mem (A B : CSRMatrix) (i q : Nat)
    (h : q ∈ (accRow A B i).map Prod.fst) :
    ∃ kv ∈ A.rowPairs i, q ∈ (B.rowPairs kv.1).map Prod.fst := by
  unfold accRow at h
  have hgen : ∀ (as : List (Nat × ℚ)) (acc : List (Nat × ℚ)),
      q ∈ ((as.foldl (fun acc kv =>
        if kv.2 = 0 then acc
        else (B.rowPairs kv.1).foldl (fun acc2 jb =>
          if kv.2 * jb.2 = 0 then acc2 else upsert acc2 jb.1 (kv.2 * jb.2)) acc) acc).map
            Prod.fst) →
      q ∈ acc.map Prod.fst ∨ ∃ kv ∈ as, q ∈ (B.rowPairs kv.1).map Prod.fst := by
    intro as
    induction as with
    | nil => intro acc hq; exact Or.inl hq
    | cons kv rest ih =>
      intro acc hq
      rw [List.foldl_cons] at hq
      rcases ih _ hq with h2 | h2
      · have h2a : q ∈ (List.map Prod.fst
            (if kv.2 = 0 then acc
             else (B.rowPairs kv.1).foldl (fun acc2 jb =>
               if kv.2 * jb.2 = 0 then acc2
               else upsert acc2 jb.1 (kv.2 * jb.2)) acc)) := h2
        by_cases hz : kv.2 = 0
        · rw [if_pos hz] at h2a
          exact Or.inl h2a
        · rw [if_neg hz] at h2a
          rcases accInner_keys_mem kv.2 _ acc q h2a with h3 | h3
          · exact Or.inl h3
          · exact Or.inr ⟨kv, by simp, h3⟩
      · obtain ⟨kv2, hkv2, hq2⟩ := h2
        exact Or.inr ⟨kv2, by simp [hkv2], hq2⟩
  rcases hgen _ [] h with h2 | h2
  · simp at h2
  · exact h2

/-! Compaction lemmas. -/

/-- On a strictly column-sorted list whose keys all exceed the accumulator's
last key, the compaction loop only drops exact zeros. -/
theorem compactLoop_sorted_eq (l : List (Nat × ℚ)) :
    ∀ acc : List (Nat × ℚ),
      l.Pairwise (fun p q => p.1 < q.1) →
      (∀ q, acc.getLast? = some q → ∀ p ∈ l, q.1 < p.1) →
      compactLoop acc l = acc ++ l.filter fun p => ¬p.2 = 0 := by
  induction l with
  | nil => intro acc _ _; simp [compactLoop]
  | cons hd rest ih =>
    obtain ⟨j, v⟩ := hd
    intro acc hsort hlast
    rw [List.pairwise_cons] at hsort
    obtain ⟨hj, hrest⟩ := hsort
    show (if v = 0 then compactLoop acc rest
      else
        match acc.getLast? with
        | some q =>
          if j = q.1 then
            if q.2 + v = 0 then compactLoop acc.dropLast rest
            else compactLoop (acc.dropLast ++ [(q.1, q.2 + v)]) rest
          else compactLoop (acc ++ [(j, v)]) rest
        | none => compactLoop [(j, v)] rest) = _
    by_cases hv : v = 0
    · rw [if_pos hv,
        ih acc hrest (fun q hq p hp => hlast q hq p (List.mem_cons_of_mem _ hp)),
        List.filter_cons, if_neg (dneg (not_not_intro hv))]
    · rw [if_neg hv]
      cases hacc : acc.getLast? with
      | none =>
        have hnil : acc = [] := List.getLast?_eq_none_iff.mp hacc
        subst hnil
        rw [ih [(j, v)] hrest (fun q hq p hp => by
          have hq2 : (j, v) = q := by simpa using hq
          subst hq2
          exact hj p hp)]
        rw [List.filter_cons, if_pos (dpos hv)]
        rfl
      | some q =>
        have hqj : q.1 < j := hlast q hacc (j, v) (List.mem_cons_self _ _)
        show (if j = q.1 then
            if q.2 + v = 0 then compactLoop acc.dropLast rest
            else compactLoop (acc.dropLast ++ [(q.1, q.2 + v)]) rest
          else compactLoop (acc ++ [(j, v)]) rest) = _
        rw [if_neg (by omega)]
        rw [ih (acc ++ [(j, v)]) hrest (fun p hp r hr => by
          rw [List.getLast?_concat] at hp
          have hp2 : (j, v) = p := by simpa using hp
          subst hp2
          exact hj r hr)]
        rw [List.filter_cons, if_pos (dpos hv)]
        simp

/-- Weak column order plus distinct columns make the sort strictly sorted. -/
theorem pairwise_lt_of_le_nodup (s : List (Nat × ℚ))
    (hw : s.Pairwise pairLe) (hn : (s.map Prod.fst).Nodup) :
    s.Pairwise fun p q => p.1 < q.1 := by
  have hne : s.Pairwise fun p q => p.1 ≠ q.1 := (List.pairwise_map).mp hn
  exact (hw.and hne).imp fun h => Nat.lt_of_le_of_ne h.1 h.2

/-- `compactRow` on a duplicate-free accumulator row: sort, then keep exactly
the nonzero pairs. -/
theorem compactRow_eq_filter (l : List (Nat × ℚ)) (hn : (l.map Prod.fst).Nodup) :
    compactRow l = (List.insertionSort pairLe l).filter fun p => ¬p.2 = 0 := by
  unfold compactRow
  have hperm := List.perm_insertionSort pairLe l
  have hn2 : ((List.insertionSort pairLe l).map Prod.fst).Nodup :=
    ((hperm.map Prod.fst)).nodup_iff.mpr hn
  have hstrict := pairwise_lt_of_le_nodup _ (List.sorted_insertionSort pairLe l) hn2
  rw [compactLoop_sorted_eq _ [] hstrict (fun q hq => by simp at hq)]
  rfl

theorem rowVal_filter_nonzero (l : List (Nat × ℚ)) (j : Nat) :
    rowVal (l.filter fun p => ¬p.2 = 0) j = rowVal l j := by
  induction l with
  | nil => rfl
  | cons p rest ih =>
    rw [List.filter_cons]
    by_cases hp : p.2 = 0
    · rw [if_neg (dneg (not_not_intro hp))]
      unfold rowVal
      rw [List.filter_cons]
      by_cases hj : p.1 = j
      · rw [if_pos (dpos hj)]
        simp only [List.map_cons, List.sum_cons, hp]
        have := ih
        unfold rowVal at this
        rw [this]
        ring
      · rw [if_neg (dneg hj)]
        exact ih
    · rw [if_pos (dpos hp)]
      unfold rowVal
      rw [List.filter_cons, List.filter_cons]
      by_cases hj : p.1 = j
      · rw [if_pos (dpos hj), if_pos (dpos hj)]
        simp only [List.map_cons, List.sum_cons]
        have := ih
        unfold rowVal at this
        rw [this]
      · rw [if_neg (dneg hj), if_neg (dneg hj)]
        exact ih

/-- The facts C1/C2 need about a compacted row. -/
theorem compactRow_facts (l : List (Nat × ℚ)) (hn : (l.map Prod.fst).Nodup) :
    ((compactRow l).map Prod.fst).Pairwise (· < ·) ∧
    (∀ p ∈ compactRow l, ¬p.2 = 0) ∧
    (∀ j, rowVal (compactRow l) j = rowVal l j) ∧
    (∀ p ∈ compactRow l, p ∈ l) := by
  rw [compactRow_eq_filter l hn]
  have hperm := List.perm_insertionSort pairLe l
  have hn2 : ((List.insertionSort pairLe l).map Prod.fst).Nodup :=
    ((hperm.map Prod.fst)).nodup_iff.mpr hn
  have hstrict := pairwise_lt_of_le_nodup _ (List.sorted_insertionSort pairLe l) hn2
  refine ⟨?_, ?_, ?_, ?_⟩
  · exact (List.pairwise_map).mpr (List.Pairwise.sublist (List.filter_sublist _) hstrict)
  · intro p hp
    simpa using (List.mem_filter.mp hp).2
  · intro j
    rw [rowVal_filter_nonzero]
    exact rowVal_perm _ _ hperm j
  · intro p hp
    exact hperm.subset ((List.filter_sublist _).subset hp)

/-! CSR×CSR assembly. -/

theorem flatten_slice {α : Type} :
    ∀ (L : List (List α)) (r : Nat), r < L.length →
      ((L.flatten.drop (((L.map List.length).take r).sum)).take (L.getD r []).length)
        = L.getD r [] := by
  intro L
  induction L with
  | nil => intro r hr; simp at hr
  | cons h t ih =>
    intro r hr
    cases r with
    | zero =>
      simp only [List.take_zero, List.sum_nil, List.drop_zero, List.getD_cons_zero,
        List.flatten_cons]
      exact List.take_left h t.flatten
    | succ r2 =>
      have hr2 : r2 < t.length := by simpa using hr
      simp only [List.map_cons, List.take_succ_cons, List.sum_cons, List.getD_cons_succ,
        List.flatten_cons]
      rw [List.drop_append]
      exact ih r2 hr2

theorem zip_flatten_eq (L : List (List (Nat × ℚ))) :
    ((L.map fun rd => rd.map Prod.fst).flatten).zip
      ((L.map fun rd => rd.map Prod.snd).flatten) = L.flatten := by
  induction L with
  | nil => rfl
  | cons h t ih =>
    simp only [List.map_cons, List.flatten_cons]
    rw [List.zip_append (by simp), ih, List.zip_map']
    simp

theorem rowPtrOfLens_getD (lens : List Nat) (r : Nat) :
    (rowPtrOfLens lens).getD r 0 = if r < lens.length + 1 then (lens.take r).sum else 0 := by
  unfold rowPtrOfLens
  rw [mapRange_getD]

theorem rowsData_length (A B : CSRMatrix) : (rowsData A B).length = A.rows := by
  simp [rowsData]

theorem rowsData_getD (A B : CSRMatrix) (r : Nat) (hr : r < A.rows) :
    (rowsData A B).getD r [] = compactRow (accRow A B r) := by
  unfold rowsData
  rw [mapRange_getD, if_pos hr]

theorem rowsData_mem (A B : CSRMatrix) (rd : List (Nat × ℚ)) (h : rd ∈ rowsData A B) :
    ∃ i, i < A.rows ∧ rd = compactRow (accRow A B i) := by
  unfold rowsData at h
  obtain ⟨i, hi, rfl⟩ := List.mem_map.mp h
  exact ⟨i, by simpa using hi, rfl⟩

theorem mulCSR_eq (A B : CSRMatrix) :
    mulCSR A B = ⟨A.rows, B.cols,
      ((rowsData A B).map fun rd => rd.map Prod.snd).flatten,
      ((rowsData A B).map fun rd => rd.map Prod.fst).flatten,
      rowPtrOfLens ((rowsData A B).map List.length)⟩ := rfl

theorem mulCSR_values_length (A B : CSRMatrix) :
    (mulCSR A B).values.length = (((rowsData A B).map List.length)).sum := by
  rw [mulCSR_eq]
  show (((rowsData A B).map fun rd => rd.map Prod.snd).flatten).length = _
  rw [List.length_flatten, List.map_map]
  congr 1
  apply List.map_congr_left
  intro rd _
  simp

theorem mulCSR_rowPairs (A B : CSRMatrix) (r : Nat) (hr : r < A.rows) :
    (mulCSR A B).rowPairs r = compactRow (accRow A B r) := by
  have hL : r < (rowsData A B).length := by rw [rowsData_length]; exact hr
  have hlen : ((rowsData A B).map List.length).length = A.rows := by
    rw [List.length_map, rowsData_length]
  have hgetr : ((rowsData A B).map List.length)[r]? =
      some ((rowsData A B).getD r []).length := by
    rw [List.getElem?_map, List.getElem?_eq_getElem hL]
    have : (rowsData A B).getD r [] = (rowsData A B)[r] := by
      rw [List.getD_eq_getElem?_getD, List.getElem?_eq_getElem hL]
      rfl
    rw [this]
    rfl
  have hp1 : (mulCSR A B).rowPtr.getD r 0 =
      (((rowsData A B).map List.length).take r).sum := by
    rw [mulCSR_eq]
    show (rowPtrOfLens _).getD r 0 = _
    rw [rowPtrOfLens_getD, if_pos (by omega)]
  have hp2 : (mulCSR A B).rowPtr.getD (r + 1) 0 =
      (((rowsData A B).map List.length).take r).sum + ((rowsData A B).getD r []).length := by
    rw [mulCSR_eq]
    show (rowPtrOfLens _).getD (r + 1) 0 = _
    rw [rowPtrOfLens_getD, if_pos (by omega), List.take_succ, List.sum_append, hgetr]
    simp
  have hzip : (mulCSR A B).colIndex.zip (mulCSR A B).values = (rowsData A B).flatten := by
    rw [mulCSR_eq]
    exact zip_flatten_eq (rowsData A B)
  unfold rowPairs
  rw [hzip, hp1, hp2, Nat.add_sub_cancel_left, ← rowsData_getD A B r hr]
  exact flatten_slice (rowsData A B) r hL

theorem mulCSR_structural (A B : CSRMatrix) : Structural (mulCSR A B) := by
  have hlen : ((rowsData A B).map List.length).length = A.rows := by
    rw [List.length_map, rowsData_length]
  refine ⟨?_, ?_, ?_, ?_, ?_⟩
  · rw [mulCSR_eq]
    show (((rowsData A B).map fun rd => rd.map Prod.snd).flatten).length =
      (((rowsData A B).map fun rd => rd.map Prod.fst).flatten).length
    rw [List.length_flatten, List.length_flatten, List.map_map, List.map_map]
    congr 1
    apply List.map_congr_left
    intro rd _
    simp
  · rw [mulCSR_eq]
    show (rowPtrOfLens ((rowsData A B).map List.length)).length = A.rows + 1
    unfold rowPtrOfLens
    rw [List.length_map, List.length_range, hlen]
  · rw [mulCSR_eq]
    show (rowPtrOfLens _).getD 0 0 = 0
    rw [rowPtrOfLens_getD, if_pos (by omega)]
    simp
  · rw [mulCSR_values_length, mulCSR_eq]
    show (rowPtrOfLens _).getD A.rows 0 = _
    rw [rowPtrOfLens_getD, if_pos (by omega), ← hlen, List.take_length]
  · intro r hr
    have hr2 : r < A.rows := hr
    rw [mulCSR_eq]
    show (rowPtrOfLens _).getD r 0 ≤ (rowPtrOfLens _).getD (r + 1) 0
    rw [rowPtrOfLens_getD, rowPtrOfLens_getD, if_pos (by omega), if_pos (by omega)]
    rw [List.take_succ, List.sum_append]
    exact Nat.le_add_right _ _

theorem mulCSR_rowsSorted (A B : CSRMatrix) : RowsSorted (mulCSR A B) := by
  intro r hr
  have hr2 : r < A.rows := hr
  rw [mulCSR_rowPairs A B r hr2]
  exact (compactRow_facts _ (accRow_keys_nodup A B r)).1

theorem mulCSR_noZero (A B : CSRMatrix) : NoZeroStored (mulCSR A B) := by
  intro v hv
  rw [mulCSR_eq] at hv
  have hv2 : v ∈ (((rowsData A B).map fun rd => rd.map Prod.snd).flatten) := hv
  rw [List.mem_flatten] at hv2
  obtain ⟨l, hl, hvl⟩ := hv2
  rw [List.mem_map] at hl
  obtain ⟨rd, hrd, rfl⟩ := hl
  rw [List.mem_map] at hvl
  obtain ⟨p, hp, rfl⟩ := hvl
  obtain ⟨i, _, rfl⟩ := rowsData_mem A B rd hrd
  exact (compactRow_facts _ (accRow_keys_nodup A B i)).2.1 p hp

theorem mulCSR_colsBounded (A B : CSRMatrix) (hAB : A.cols = B.rows)
    (hA : ColsBounded A) (hB : ColsBounded B) : ColsBounded (mulCSR A B) := by
  intro r hr p hp
  have hr2 : r < A.rows := hr
  rw [mulCSR_rowPairs A B r hr2] at hp
  have hmem := (compactRow_facts _ (accRow_keys_nodup A B r)).2.2.2 p hp
  have hkey : p.1 ∈ (accRow A B r).map Prod.fst := List.mem_map_of_mem _ hmem
  obtain ⟨kv, hkv, hq⟩ := accRow_keys_mem A B r p.1 hkey
  rw [List.mem_map] at hq
  obtain ⟨q, hqmem, hq1⟩ := hq
  have hk : kv.1 < B.rows := hAB ▸ hA r hr2 kv hkv
  show p.1 < B.cols
  rw [← hq1]
  exact hB kv.1 hk q hqmem

theorem mulCSR_getv (A B : CSRMatrix) (r : Nat) (hr : r < A.rows) (j : Nat) :
    (mulCSR A B).getv r j = rowVal (accRow A B r) j := by
  unfold getv
  rw [mulCSR_rowPairs A B r hr,
    scanRow_eq_rowVal _ (compactRow_facts _ (accRow_keys_nodup A B r)).1]
  exact (compactRow_facts _ (accRow_keys_nodup A B r)).2.2.1 j

theorem mulCSR_wf (A B : CSRMatrix) (hAB : A.cols = B.rows)
    (hA : ColsBounded A) (hB : ColsBounded B) : Wf (mulCSR A B) :=
  ⟨mulCSR_structural A B, mulCSR_rowsSorted A B, mulCSR_colsBounded A B hAB hA hB⟩

/-! The refinement chain from the Gustavson product to the dense kernel. -/

/-- A dot against the keyed totals of a bounded pair list equals the dot
against the pairs themselves. -/
theorem sum_over_keys (l : List (Nat × ℚ)) (n : Nat) (g : Nat → ℚ)
    (hb : ∀ p ∈ l, p.1 < n) :
    ((List.range n).map fun k => rowVal l k * g k).sum =
      (l.map fun kv => kv.2 * g kv.1).sum := by
  induction l with
  | nil =>
    have : ∀ k ∈ List.range n, rowVal [] k * g k = (0 : ℚ) := by
      intro k _
      unfold rowVal
      simp
    rw [List.map_congr_left this]
    simp
  | cons p rest ih =>
    have hbr : ∀ q ∈ rest, q.1 < n := fun q hq => hb q (List.mem_cons_of_mem _ hq)
    have hrv : ∀ k, rowVal (p :: rest) k = (if p.1 = k then p.2 else 0) + rowVal rest k := by
      intro k
      unfold rowVal
      rw [List.filter_cons]
      by_cases hk : p.1 = k
      · rw [if_pos (dpos hk), if_pos hk]
        simp
      · rw [if_neg (dneg hk), if_neg hk]
        simp
    have h1 : ∀ k ∈ List.range n, rowVal (p :: rest) k * g k =
        (if p.1 = k then p.2 * g p.1 else 0) + rowVal rest k * g k := by
      intro k _
      rw [hrv k]
      by_cases hk : p.1 = k
      · rw [if_pos hk, if_pos hk, hk]
        ring
      · rw [if_neg hk, if_neg hk]
        ring
    rw [List.map_congr_left h1, List.sum_map_add, ih hbr,
      sum_map_range_single n p.1 (p.2 * g p.1),
      if_pos (hb p (List.mem_cons_self _ _))]
    simp

/-- Element (i, j) of the CSR product of two densified operands is the dense
i-k-j dot. -/
theorem mulCSR_fromDense_getv (A B : DenseMatrix) (hAB : A.cols = B.rows)
    (i j : Nat) (hi : i < A.rows) (hj : j < B.cols) :
    ((fromDense0 A).mulCSR (fromDense0 B)).getv i j = (A.mulDense B).entry i j := by
  have hwA := fromDense0_wf A
  have hwB := fromDense0_wf B
  have hArows : (fromDense0 A).rows = A.rows := cooBuild_rows _ _ _
  have hAcols : (fromDense0 A).cols = A.cols := cooBuild_cols _ _ _
  have hBrows : (fromDense0 B).rows = B.rows := cooBuild_rows _ _ _
  rw [mulCSR_getv _ _ i (by rw [hArows]; exact hi) j, accRow_rowVal]
  have hstep1 : ((fromDense0 A).rowPairs i).map
      (fun kv => kv.2 * rowVal ((fromDense0 B).rowPairs kv.1) j) =
      ((fromDense0 A).rowPairs i).map (fun kv => kv.2 * B.entry kv.1 j) := by
    apply List.map_congr_left
    intro kv hkv
    have hk : kv.1 < B.rows := by
      have h := hwA.2.2 i (by rw [hArows]; exact hi) kv hkv
      rw [hAcols, hAB] at h
      exact h
    congr 1
    rw [← scanRow_eq_rowVal _ (hwB.2.1 kv.1 (by rw [hBrows]; exact hk))]
    show (fromDense0 B).getv kv.1 j = B.entry kv.1 j
    exact fromDense0_getv B kv.1 j hk hj
  rw [hstep1]
  rw [← sum_over_keys ((fromDense0 A).rowPairs i) A.cols (fun k => B.entry k j)
    (fun p hp => by
      have h := hwA.2.2 i (by rw [hArows]; exact hi) p hp
      rw [hAcols] at h
      exact h)]
  have hstep2 : ∀ k ∈ List.range A.cols,
      rowVal ((fromDense0 A).rowPairs i) k * B.entry k j =
      if A.entry i k = 0 then 0 else A.entry i k * B.entry k j := by
    intro k hk
    rw [List.mem_range] at hk
    rw [← scanRow_eq_rowVal _ (hwA.2.1 i (by rw [hArows]; exact hi))]
    show (fromDense0 A).getv i k * B.entry k j = _
    rw [fromDense0_getv A i k hi hk]
    by_cases hz : A.entry i k = 0
    · rw [if_pos hz, hz]
      ring
    · rw [if_neg hz]
  rw [List.map_congr_left hstep2]
  unfold DenseMatrix.mulDense
  rw [DenseMatrix.ofFn_entry A.rows B.cols _ i j hi hj]

end CSRMatrix

/-- C1: for dense operands of compatible shapes, converting both to CSR
(which stores no exact zero), multiplying with the Gustavson CSR kernel and
densifying gives, element for element, the dense×dense product; the CSR
product stores no exact zero (cancelled dots are structurally absent) and
`get` returns the dense value (0 at the pruned positions). -/
theorem c1_csr_mul_refines_dense (A B : DenseMatrix) (hAB : A.cols = B.rows) :
    CSRMatrix.fromDense A = .ok (CSRMatrix.fromDense0 A) ∧
    CSRMatrix.fromDense B = .ok (CSRMatrix.fromDense0 B) ∧
    (CSRMatrix.fromDense0 A).mulMat (CSRMatrix.fromDense0 B) =
      .ok ((CSRMatrix.fromDense0 A).mulCSR (CSRMatrix.fromDense0 B)) ∧
    CSRMatrix.NoZeroStored ((CSRMatrix.fromDense0 A).mulCSR (CSRMatrix.fromDense0 B)) ∧
    ((CSRMatrix.fromDense0 A).mulCSR (CSRMatrix.fromDense0 B)).toDense.rows =
      (A.mulDense B).rows ∧
    ((CSRMatrix.fromDense0 A).mulCSR (CSRMatrix.fromDense0 B)).toDense.cols =
      (A.mulDense B).cols ∧
    ∀ i j, i < A.rows → j < B.cols →
      ((CSRMatrix.fromDense0 A).mulCSR (CSRMatrix.fromDense0 B)).toDense.entry i j =
        (A.mulDense B).entry i j ∧
      ((CSRMatrix.fromDense0 A).mulCSR (CSRMatrix.fromDense0 B)).get i j =
        .ok ((A.mulDense B).entry i j) := by
  have hwA := CSRMatrix.fromDense0_wf A
  have hwB := CSRMatrix.fromDense0_wf B
  have hArows : (CSRMatrix.fromDense0 A).rows = A.rows := CSRMatrix.cooBuild_rows _ _ _
  have hAcols : (CSRMatrix.fromDense0 A).cols = A.cols := CSRMatrix.cooBuild_cols _ _ _
  have hBrows : (CSRMatrix.fromDense0 B).rows = B.rows := CSRMatrix.cooBuild_rows _ _ _
  have hBcols : (CSRMatrix.fromDense0 B).cols = B.cols := CSRMatrix.cooBuild_cols _ _ _
  have hdim : (CSRMatrix.fromDense0 A).cols = (CSRMatrix.fromDense0 B).rows := by
    rw [hAcols, hBrows, hAB]
  have hwM := CSRMatrix.mulCSR_wf _ _ hdim hwA.2.2 hwB.2.2
  have hMrows : ((CSRMatrix.fromDense0 A).mulCSR (CSRMatrix.fromDense0 B)).rows = A.rows :=
    hArows
  have hMcols : ((CSRMatrix.fromDense0 A).mulCSR (CSRMatrix.fromDense0 B)).cols = B.cols :=
    hBcols
  refine ⟨CSRMatrix.fromDense_eq_ok A, CSRMatrix.fromDense_eq_ok B, ?_,
    CSRMatrix.mulCSR_noZero _ _, ?_, ?_, ?_⟩
  · unfold CSRMatrix.mulMat
    rw [if_pos hdim]
  · rw [CSRMatrix.toDense_rows, hMrows]
    rfl
  · rw [CSRMatrix.toDense_cols, hMcols]
    rfl
  · intro i j hi hj
    have hgv := CSRMatrix.mulCSR_fromDense_getv A B hAB i j hi hj
    constructor
    · rw [CSRMatrix.toDense_entry_eq_getv _ hwM i j (by rw [hMrows]; exact hi)
        (by rw [hMcols]; exact hj)]
      exact hgv
    · unfold CSRMatrix.get
      rw [if_pos ⟨by rw [hMrows]; exact hi, by rw [hMcols]; exact hj⟩, hgv]

/-- Witness for C1 at a concrete pair of shapes-compatible dense matrices. -/
theorem c1_witness :
    CSRMatrix.fromDense c1A = .ok (CSRMatrix.fromDense0 c1A) ∧
    ((CSRMatrix.fromDense0 c1A).mulCSR (CSRMatrix.fromDense0 c1B)).toDense.entry 0 1 =
      (c1A.mulDense c1B).entry 0 1 ∧
    ((CSRMatrix.fromDense0 c1A).mulCSR (CSRMatrix.fromDense0 c1B)).get 0 1 =
      .ok ((c1A.mulDense c1B).entry 0 1) :=
  ⟨(c1_csr_mul_refines_dense c1A c1B rfl).1,
   ((c1_csr_mul_refines_dense c1A c1B rfl).2.2.2.2.2.2 0 1 (by decide) (by decide)).1,
   ((c1_csr_mul_refines_dense c1A c1B rfl).2.2.2.2.2.2 0 1 (by decide) (by decide)).2⟩

namespace CSRMatrix

/-! `set` and `mulScalar` invariant lemmas. -/

theorem replaceFirst_posOf (es : List Entry) (i j : Nat) (v : ℚ) :
    (replaceFirst es i j v).map posOf = es.map posOf := by
  induction es with
  | nil => rfl
  | cons t rest ih =>
    show ((if t.i = i ∧ t.j = j then Entry.mk t.i t.j v :: rest
      else t :: replaceFirst rest i j v).map posOf) = _
    by_cases h : t.i = i ∧ t.j = j
    · rw [if_pos h]
      rfl
    · rw [if_neg h, List.map_cons, List.map_cons, ih]

theorem replaceFirst_mem (es : List Entry) (i j : Nat) (v : ℚ) :
    ∀ e ∈ replaceFirst es i j v, ∃ t ∈ es, e.i = t.i ∧ e.j = t.j := by
  induction es with
  | nil => intro e he; simp [replaceFirst] at he
  | cons t rest ih =>
    intro e he
    have he2 : e ∈ (if t.i = i ∧ t.j = j then Entry.mk t.i t.j v :: rest
      else t :: replaceFirst rest i j v) := he
    by_cases h : t.i = i ∧ t.j = j
    · rw [if_pos h] at he2
      rcases List.mem_cons.mp he2 with rfl | hmem
      · exact ⟨t, List.mem_cons_self _ _, rfl, rfl⟩
      · exact ⟨e, List.mem_cons_of_mem _ hmem, rfl, rfl⟩
    · rw [if_neg h] at he2
      rcases List.mem_cons.mp he2 with rfl | hmem
      · exact ⟨e, List.mem_cons_self _ _, rfl, rfl⟩
      · obtain ⟨t2, ht2, h2⟩ := ih e hmem
        exact ⟨t2, List.mem_cons_of_mem _ ht2, h2⟩

/-- On an in-bounds position of a well-formed receiver, `set` succeeds with a
well-formed, zero-free rebuild. -/
theorem set_ok (A : CSRMatrix) (hw : Wf A) (i j : Nat) (hi : i < A.rows)
    (hj : j < A.cols) (v : ℚ) :
    ∃ C, A.set i j v = .ok C ∧ Wf C ∧ NoZeroStored C := by
  have hnd : (A.entriesOf.map posOf).Nodup :=
    pairwise_lt_posOf_nodup A.entriesOf (entriesOf_pairwise_lt A hw.2.1)
  have hbounds : ∀ e ∈ A.entriesOf, e.i < A.rows ∧ e.j < A.cols :=
    fun e he => entriesOf_bounds A hw.2.2 e he
  have key : ∀ es' : List Entry,
      (∀ e ∈ es', e.i < A.rows ∧ e.j < A.cols) → ((es'.map posOf).Nodup) →
      ∃ C, fromCOO A.rows A.cols (es'.filter fun t => t.v ≠ 0) = .ok C ∧
        Wf C ∧ NoZeroStored C := by
    intro es2 hb hnd2
    have hbf : ∀ e ∈ es2.filter fun t => t.v ≠ 0, e.i < A.rows ∧ e.j < A.cols :=
      fun e he => hb e (List.mem_filter.mp he).1
    have hndf : ((es2.filter fun t => t.v ≠ 0).map posOf).Nodup :=
      hnd2.sublist (List.Sublist.map posOf (List.filter_sublist _))
    have hvf : ∀ e ∈ es2.filter fun t => t.v ≠ 0, e.v ≠ 0 := by
      intro e he
      have h2 := (List.mem_filter.mp he).2
      simpa using h2
    exact ⟨_, fromCOO_eq_ok _ _ _ hbf,
      cooBuild_wf _ _ _ hbf hndf,
      cooBuild_noZero _ _ _ (fun e he => (hbf e he).1) hvf⟩
  unfold set
  rw [if_pos ⟨hi, hj⟩]
  show ∃ C, fromCOO A.rows A.cols
    ((if A.entriesOf.any fun t => t.i = i && t.j = j then replaceFirst A.entriesOf i j v
      else A.entriesOf ++ [Entry.mk i j v]).filter fun t => t.v ≠ 0) = .ok C ∧
    Wf C ∧ NoZeroStored C
  by_cases hany : (A.entriesOf.any fun t => t.i = i && t.j = j) = true
  · rw [if_pos hany]
    refine key _ ?_ ?_
    · intro e he
      obtain ⟨t, ht, hei, hej⟩ := replaceFirst_mem A.entriesOf i j v e he
      rw [hei, hej]
      exact hbounds t ht
    · rw [replaceFirst_posOf]
      exact hnd
  · rw [if_neg hany]
    refine key _ ?_ ?_
    · intro e he
      rcases List.mem_append.mp he with h1 | h1
      · exact hbounds e h1
      · have he2 : e = Entry.mk i j v := by simpa using h1
        subst he2
        exact ⟨hi, hj⟩
    · rw [List.map_append]
      rw [List.nodup_append]
      refine ⟨hnd, List.nodup_singleton _, ?_⟩
      intro x hx hx2
      have hxe : x = posOf (Entry.mk i j v) := by simpa using hx2
      obtain ⟨t, ht, hpt⟩ := List.mem_map.mp hx
      apply hany
      rw [List.any_eq_true]
      refine ⟨t, ht, ?_⟩
      have hij : t.i = i ∧ t.j = j := by
        have h3 : posOf t = posOf (Entry.mk i j v) := by rw [hpt, hxe]
        unfold posOf at h3
        exact ⟨congrArg Prod.fst h3, congrArg Prod.snd h3⟩
      simp [hij.1, hij.2]

theorem map_fst_zip_map {α β γ : Type} (f : β → γ) :
    ∀ (l₁ : List α) (l₂ : List β),
      (l₁.zip (l₂.map f)).map Prod.fst = (l₁.zip l₂).map Prod.fst := by
  intro l₁
  induction l₁ with
  | nil => intro l₂; rfl
  | cons a t ih =>
    intro l₂
    cases l₂ with
    | nil => rfl
    | cons b t2 => simp [ih]

/-- Scalar multiplication rescales `values` in place: the column structure of
every row slice is untouched. -/
theorem mulScalar_rowPairs_fst (A : CSRMatrix) (c : ℚ) (r : Nat) :
    ((A.mulScalar c).rowPairs r).map Prod.fst = ((A.rowPairs r).map Prod.fst) := by
  show ((((A.colIndex.zip (A.values.map (· * c))).drop (A.rowPtr.getD r 0)).take
    (A.rowPtr.getD (r + 1) 0 - A.rowPtr.getD r 0)).map Prod.fst) = _
  rw [List.map_take, List.map_drop, map_fst_zip_map, ← List.map_drop, ← List.map_take]
  rfl

theorem mulScalar_rowsSorted (A : CSRMatrix) (c : ℚ) (hs : RowsSorted A) :
    RowsSorted (A.mulScalar c) := by
  intro r hr
  rw [mulScalar_rowPairs_fst]
  exact hs r hr

end CSRMatrix

unseal Rat.mul in
/-- C2 counterexample: `mulScalar` copies the sparsity structure verbatim, so
scaling an engine-built matrix by the scalar 0 stores exact zeros — the
no-exact-zero half of the claimed invariant fails for an operation of the
engine. -/
theorem c2_counterexample :
    CSRMatrix.fromCOO 2 2 [Entry.mk 0 0 1, Entry.mk 1 1 2] = .ok csrW ∧
    CSRMatrix.CSRInvariant csrW ∧
    ¬CSRMatrix.NoZeroStored (csrW.mulScalar 0) := by decide

/-- C2 (amended): every structure-rebuilding operation of the engine —
`fromCOO` on in-bounds, position-distinct, nonzero entries, `fromDense`,
`add`, `sub`, matrix `mul`, `transpose` and `set` — produces a matrix whose
rows have strictly increasing column indices and no stored exact zero;
`mulScalar` preserves only the sortedness half (a zero scalar stores zeros,
see the counterexample). -/
theorem c2_invariants_amended :
    (∀ rows cols : Nat, ∀ es : List Entry,
        (∀ e ∈ es, e.i < rows ∧ e.j < cols) →
        ((es.map CSRMatrix.posOf).Nodup) → (∀ e ∈ es, e.v ≠ 0) →
        ∃ C, CSRMatrix.fromCOO rows cols es = .ok C ∧ CSRMatrix.CSRInvariant C) ∧
    (∀ A : DenseMatrix, CSRMatrix.fromDense A = .ok (CSRMatrix.fromDense0 A) ∧
        CSRMatrix.CSRInvariant (CSRMatrix.fromDense0 A)) ∧
    (∀ A B : CSRMatrix, CSRMatrix.Wf A → CSRMatrix.Wf B →
        CSRMatrix.NoZeroStored A → CSRMatrix.NoZeroStored B →
        A.rows = B.rows → A.cols = B.cols →
        ∃ C, A.add B = .ok C ∧ CSRMatrix.CSRInvariant C) ∧
    (∀ A B : CSRMatrix, CSRMatrix.Wf A → CSRMatrix.Wf B →
        CSRMatrix.NoZeroStored A → CSRMatrix.NoZeroStored B →
        A.rows = B.rows → A.cols = B.cols →
        ∃ C, A.sub B = .ok C ∧ CSRMatrix.CSRInvariant C) ∧
    (∀ A B : CSRMatrix, A.cols = B.rows →
        A.mulMat B = .ok (A.mulCSR B) ∧ CSRMatrix.CSRInvariant (A.mulCSR B)) ∧
    (∀ A : CSRMatrix, CSRMatrix.Wf A → CSRMatrix.NoZeroStored A →
        ∃ C, A.transpose = .ok C ∧ CSRMatrix.CSRInvariant C) ∧
    (∀ (A : CSRMatrix) (i j : Nat) (v : ℚ), CSRMatrix.Wf A → i < A.rows → j < A.cols →
        ∃ C, A.set i j v = .ok C ∧ CSRMatrix.CSRInvariant C) ∧
    (∀ (A : CSRMatrix) (c : ℚ), CSRMatrix.RowsSorted A →
        CSRMatrix.RowsSorted (A.mulScalar c)) := by
  refine ⟨?_, ?_, ?_, ?_, ?_, ?_, ?_, ?_⟩
  · intro rows cols es hb hnd hv
    exact ⟨_, CSRMatrix.fromCOO_eq_ok _ _ _ hb,
      CSRMatrix.cooBuild_rowsSorted _ _ _ (fun e he => (hb e he).1) hnd,
      CSRMatrix.cooBuild_noZero _ _ _ (fun e he => (hb e he).1) hv⟩
  · intro A
    exact ⟨CSRMatrix.fromDense_eq_ok A, (CSRMatrix.fromDense0_wf A).2.1,
      CSRMatrix.fromDense0_noZero A⟩
  · intro A B hwA hwB hzA hzB hr hc
    obtain ⟨hok, hwf, hnz⟩ := CSRMatrix.add_ok_wf A B hwA hwB hzA hzB hr hc
    exact ⟨_, hok, hwf.2.1, hnz⟩
  · intro A B hwA hwB hzA hzB hr hc
    obtain ⟨hok, hwf, hnz⟩ := CSRMatrix.sub_ok_wf A B hwA hwB hzA hzB hr hc
    exact ⟨_, hok, hwf.2.1, hnz⟩
  · intro A B hAB
    refine ⟨?_, CSRMatrix.mulCSR_rowsSorted A B, CSRMatrix.mulCSR_noZero A B⟩
    unfold CSRMatrix.mulMat
    rw [if_pos hAB]
  · intro A hw hz
    refine ⟨_, CSRMatrix.transpose_eq_ok A hw,
      (CSRMatrix.transpose_build_wf A hw).2.1, ?_⟩
    apply CSRMatrix.cooBuild_noZero
    · intro e2 he2
      obtain ⟨e, he, rfl⟩ := List.mem_map.mp he2
      exact (CSRMatrix.entriesOf_bounds A hw.2.2 e he).2
    · intro e2 he2
      obtain ⟨e, he, rfl⟩ := List.mem_map.mp he2
      exact hz e.v (CSRMatrix.entriesOf_values_mem A e he)
  · intro A i j v hw hi hj
    obtain ⟨C, hok, hwf, hnz⟩ := CSRMatrix.set_ok A hw i j hi hj v
    exact ⟨C, hok, hwf.2.1, hnz⟩
  · intro A c hs
    exact CSRMatrix.mulScalar_rowsSorted A c hs

/-- Witness for C2 at a concrete product of an engine-built matrix with
itself. -/
theorem c2_witness :
    csrW.mulMat csrW = .ok (csrW.mulCSR csrW) ∧
    CSRMatrix.CSRInvariant (csrW.mulCSR csrW) :=
  c2_invariants_amended.2.2.2.2.1 csrW csrW rfl

end Abacus
